import Mathlib

/-!
Verification of the trace analytics engine of the observability_stack repository.

The engine under study consists of four parts, all embedded here from the
TypeScript source:

* the span tree builder (`spanTree` in ModernTraceTimeline / TraceTimeline),
* the timeline layout quantities (`maxTime`, bar offset and width),
* the metrics aggregator (the `useMemo` computation of ResponsiveMetricCards,
  which extends the one in TraceMetrics with p99 and successRate),
* the trace filter and sort engine (`filteredTraces` of AdvancedTraceSearch;
  the TraceSearch variant shares the same duration-filter construct).

Timestamps are modelled as integer epoch milliseconds: the source parses
ISO-8601 strings with new Date(...).getTime() before any arithmetic, and that
parsing step is outside the algorithmic core.  JavaScript number arithmetic on
these values is modelled exactly over ℤ/ℚ; a division whose JS result is
non-finite (NaN or an infinity) is modelled as `none`.
-/

/-- JS truthiness of an optional string field: `undefined` and `""` are falsy. -/
def jsTruthyStr : Option String → Bool
  | none => false
  | some s => s ≠ ""

/-- `Map.set` of a JS Map represented as an association list: an existing key
keeps its original insertion position but its value is overwritten; a new key
is appended. -/
def jsMapSet {α : Type} (m : List (String × α)) (k : String) (v : α) :
    List (String × α) :=
  if m.any (fun e => e.1 == k) then
    m.map (fun e => if e.1 == k then (k, v) else e)
  else
    m ++ [(k, v)]

/-- `Map.get` / `Map.has` lookup on the association-list representation. -/
def jsMapGet {α : Type} (m : List (String × α)) (k : String) : Option α :=
  match m.find? (fun e => e.1 == k) with
  | some e => some e.2
  | none => none

/-- `Math.min(...xs)` over a list known (at every call site) to be non-empty;
the source guards every use with a length check, so the `[]` branch is
unreachable and its value irrelevant. -/
def jsMin (l : List Int) : Int :=
  match l with
  | [] => 0
  | x :: xs => xs.foldl min x

/-- `Math.max(...xs)`, with the same unreachable-empty convention as `jsMin`. -/
def jsMax (l : List Int) : Int :=
  match l with
  | [] => 0
  | x :: xs => xs.foldl max x

/-- Does the character list `p` occur at the head of `h`?  Building block for
JS `String.prototype.includes`. -/
def listStarts : List Char → List Char → Bool
  | _, [] => true
  | [], _ :: _ => false
  | a :: as, b :: bs => a == b && listStarts as bs

/-- JS `hay.includes(pat)`: substring containment. -/
def strIncludes (hay pat : String) : Bool :=
  (List.range (hay.data.length + 1)).any
    (fun i => listStarts (hay.data.drop i) pat.data)

/-- Reads a maximal run of decimal digits: returns the value read, the number
of digits, and the rest of the input. -/
def parseDigits (cs : List Char) : Nat × Nat × List Char :=
  match cs with
  | c :: rest =>
    if c.isDigit then
      let (v, n, r) := parseDigits rest
      (v + (c.toNat - '0'.toNat) * 10 ^ n, n + 1, r)
    else (0, 0, cs)
  | [] => (0, 0, [])

/-- JS `parseFloat`: skips leading whitespace, reads an optional sign, an
integer part, an optional fractional part and an optional exponent, ignoring
any trailing garbage.  `none` models the NaN result obtained when no digit can
be read.  (The special literal "Infinity" is not modelled: the source never
feeds it to parseFloat — the Infinity preset bound is mapped to the empty
string before it reaches the filter state.) -/
def jsParseFloat (s : String) : Option ℚ :=
  let cs := s.data.dropWhile Char.isWhitespace
  let (neg, cs1) :=
    match cs with
    | '-' :: t => (true, t)
    | '+' :: t => (false, t)
    | _ => (false, cs)
  let (iv, ic, cs2) := parseDigits cs1
  let (fv, fc, cs3) :=
    match cs2 with
    | '.' :: t => parseDigits t
    | _ => (0, 0, cs2)
  if ic = 0 ∧ fc = 0 then none
  else
    let mant : ℚ := (iv : ℚ) + (fv : ℚ) / (10 : ℚ) ^ fc
    let ev : Int :=
      match cs3 with
      | 'e' :: t =>
        (match t with
         | '-' :: u => -(((parseDigits u).1 : Int))
         | '+' :: u => ((parseDigits u).1 : Int)
         | u => ((parseDigits u).1 : Int))
      | 'E' :: t =>
        (match t with
         | '-' :: u => -(((parseDigits u).1 : Int))
         | '+' :: u => ((parseDigits u).1 : Int)
         | u => ((parseDigits u).1 : Int))
      | _ => 0
    let v := mant * (10 : ℚ) ^ ev
    some (if neg then -v else v)

/-- A JS division `a / b`: `none` stands for a non-finite result (0/0 is NaN,
x/0 is an infinity).  All theorems below use it only where the non-finite case
is NaN or +∞, for which propagating `none` through `Math.max` matches JS. -/
def jsDiv (a b : ℚ) : Option ℚ :=
  if b = 0 then none else some (a / b)

/-! ## Data model -/

/-- A scalar attribute value carried in a span's open attribute map. -/
inductive AttrVal where
  | str (s : String)
  | num (q : ℚ)
  deriving DecidableEq, Inhabited

/-- One entry of a span's `events` sequence. -/
structure SpanEvent where
  name : String
  timestamp : Int
  attributes : List (String × AttrVal)
  deriving DecidableEq, Inhabited

/-- An input span (`TraceSpan` in the source), immutable once received.
`start_time` / `end_time` are epoch milliseconds. -/
structure Span where
  span_id : String
  trace_id : String
  parent_span_id : Option String
  name : String
  start_time : Int
  end_time : Int
  status_code : String
  status_message : Option String
  attributes : List (String × AttrVal)
  events : List SpanEvent
  kind : String
  deriving DecidableEq, Inhabited

/-- An input trace summary. -/
structure TraceSummary where
  trace_id : String
  root_span_name : String
  session_id : Option String
  start_time : Int
  end_time : Int
  span_count : Nat
  deriving DecidableEq, Inhabited

/-- Duration of a trace summary in milliseconds:
`new Date(end_time).getTime() - new Date(start_time).getTime()`. -/
def traceDuration (t : TraceSummary) : Int :=
  t.end_time - t.start_time

/-! ## Trace filter and sort engine (AdvancedTraceSearch.filteredTraces) -/

/-- The `status` filter option. -/
inductive StatusFilter where
  | all
  | success
  | error
  | slow
  deriving DecidableEq, Inhabited

/-- The `sortBy` filter option. -/
inductive SortKey where
  | timestamp
  | duration
  | spans
  deriving DecidableEq, Inhabited

/-- The `sortOrder` filter option. -/
inductive SortOrder where
  | asc
  | desc
  deriving DecidableEq, Inhabited

/-- The filter specification held in the AdvancedTraceSearch component state.
Duration bounds are kept as raw strings, exactly as in the source. -/
structure Filters where
  searchTerm : String
  minDuration : String
  maxDuration : String
  status : StatusFilter
  sessionId : String
  dateRange : String
  sortBy : SortKey
  sortOrder : SortOrder
  deriving DecidableEq, Inhabited

/-- The initial filter state of the component. -/
def defaultFilters : Filters :=
  { searchTerm := ""
    minDuration := ""
    maxDuration := ""
    status := StatusFilter.all
    sessionId := ""
    dateRange := "all"
    sortBy := SortKey.timestamp
    sortOrder := SortOrder.desc }

/-- The duration-threshold status bucket used when a status filter is active
(the body of the `filters.status !== 'all'` filter in AdvancedTraceSearch):
error ⇐ duration > 15000, success ⇐ duration ≤ 5000,
slow ⇐ 5000 < duration ≤ 15000; the `all` branch is the trailing
`return true`. -/
def statusKeep (st : StatusFilter) (d : Int) : Bool :=
  match st with
  | StatusFilter.error => d > 15000
  | StatusFilter.success => d ≤ 5000
  | StatusFilter.slow => decide (d > 5000 ∧ d ≤ 15000)
  | StatusFilter.all => true

/-- The text-search predicate: case-insensitive containment in the root span
name, the trace id, or (when present and non-empty) the session id. -/
def searchKeep (term : String) (t : TraceSummary) : Bool :=
  strIncludes t.root_span_name.toLower term ||
  strIncludes t.trace_id.toLower term ||
  (match t.session_id with
   | some sid => sid ≠ "" && strIncludes sid.toLower term
   | none => false)

/-- A comparison against a parsed duration bound; a NaN bound (`none`) makes
the comparison false for every trace, as in JS. -/
def jsGeBound (d : Int) (bound : Option ℚ) : Bool :=
  match bound with
  | some q => decide ((d : ℚ) ≥ q)
  | none => false

/-- As `jsGeBound`, for the `<=` comparison of the max bound. -/
def jsLeBound (d : Int) (bound : Option ℚ) : Bool :=
  match bound with
  | some q => decide ((d : ℚ) ≤ q)
  | none => false

/-- The relative date-range cutoff (epoch ms) for a given `now`; the
`default` branch of the source switch yields `new Date(0)`. -/
def dateCutoff (now : Int) (range : String) : Int :=
  if range = "15m" then now - 15 * 60 * 1000
  else if range = "1h" then now - 60 * 60 * 1000
  else if range = "6h" then now - 6 * 60 * 60 * 1000
  else if range = "24h" then now - 24 * 60 * 60 * 1000
  else if range = "7d" then now - 7 * 24 * 60 * 60 * 1000
  else 0

/-- The signed comparison value of the final sort stage
(`comparison` in the source, before the sortOrder sign flip). -/
def sortComparison (k : SortKey) (a b : TraceSummary) : Int :=
  match k with
  | SortKey.timestamp => a.start_time - b.start_time
  | SortKey.duration => traceDuration a - traceDuration b
  | SortKey.spans => (a.span_count : Int) - (b.span_count : Int)

/-- The sort relation realised by the stable JS `Array.prototype.sort` with
the effective comparator (sign-flipped when descending): `a` may stay before
`b` iff the effective comparison is ≤ 0. -/
def sortRel (k : SortKey) (o : SortOrder) (a b : TraceSummary) : Prop :=
  match o with
  | SortOrder.asc => sortComparison k a b ≤ 0
  | SortOrder.desc => -(sortComparison k a b) ≤ 0

instance sortRelDecidable (k : SortKey) (o : SortOrder) :
    DecidableRel (sortRel k o) := fun a b =>
  match o with
  | SortOrder.asc => inferInstanceAs (Decidable (sortComparison k a b ≤ 0))
  | SortOrder.desc => inferInstanceAs (Decidable (-(sortComparison k a b) ≤ 0))

/-- The filter and sort pipeline of AdvancedTraceSearch (`filteredTraces`):
text search, min/max duration bounds, duration-derived status bucket, exact
session match, relative date range, then a stable sort.  `now` is the clock
value read by the date-range stage. -/
def filteredTraces (now : Int) (traces : List TraceSummary) (f : Filters) :
    List TraceSummary :=
  let l0 := traces
  let l1 := if f.searchTerm ≠ "" then
      l0.filter (searchKeep f.searchTerm.toLower) else l0
  let l2 := if f.minDuration ≠ "" then
      l1.filter (fun t => jsGeBound (traceDuration t) (jsParseFloat f.minDuration))
    else l1
  let l3 := if f.maxDuration ≠ "" then
      l2.filter (fun t => jsLeBound (traceDuration t) (jsParseFloat f.maxDuration))
    else l2
  let l4 := if f.status ≠ StatusFilter.all then
      l3.filter (fun t => statusKeep f.status (traceDuration t)) else l3
  let l5 := if f.sessionId ≠ "" then
      l4.filter (fun t => t.session_id == some f.sessionId) else l4
  let l6 := if f.dateRange ≠ "all" then
      l5.filter (fun t => t.start_time ≥ dateCutoff now f.dateRange) else l5
  l6.insertionSort (sortRel f.sortBy f.sortOrder)

/-! ## Metrics aggregator (ResponsiveMetricCards) -/

/-- The metric fields referenced by the claims.  The remaining fields of the
source record (throughput, totalTokens, slowestTrace and the two breakdowns)
are independent computations that no claim mentions and are omitted. -/
structure Metrics where
  avgLatency : ℚ
  p95Latency : ℚ
  p99Latency : ℚ
  errorRate : ℚ
  successRate : ℚ
  deriving DecidableEq, Inhabited

/-- `sortedLatencies[i] || 0`: out-of-range indexing gives `undefined`, which
`|| 0` turns into 0; a stored 0 is falsy and also yields 0. -/
def jsIndexOr0 (l : List ℚ) (i : Nat) : ℚ :=
  match l.get? i with
  | some v => if v = 0 then 0 else v
  | none => 0

/-- The per-trace latency list
(`new Date(end).getTime() - new Date(start).getTime()` per trace). -/
def latencies (traces : List TraceSummary) : List ℚ :=
  traces.map (fun t => ((traceDuration t : Int) : ℚ))

/-- `[...latencies].sort((a, b) => a - b)`: the latency list sorted
ascending (stable, though stability is immaterial for plain numbers). -/
def sortedLatencies (traces : List TraceSummary) : List ℚ :=
  (latencies traces).insertionSort (fun a b => a ≤ b)

/-- The metrics computation of ResponsiveMetricCards (TraceMetrics computes
the p95/avg/error-rate subset with identical formulas).  An empty trace list
short-circuits to the all-zero record before any span is examined. -/
def metricsOf (traces : List TraceSummary) (spans : List Span) : Metrics :=
  if traces.isEmpty then
    { avgLatency := 0, p95Latency := 0, p99Latency := 0,
      errorRate := 0, successRate := 0 }
  else
    let avgLatency := (latencies traces).sum / ((latencies traces).length : ℚ)
    let sorted := sortedLatencies traces
    let p95Index := sorted.length * 95 / 100
    let p99Index := sorted.length * 99 / 100
    let p95Latency := jsIndexOr0 sorted p95Index
    let p99Latency := jsIndexOr0 sorted p99Index
    let errorCount := (spans.filter (fun s => s.status_code == "ERROR")).length
    let errorRate : ℚ :=
      if spans.length = 0 then 0
      else ((errorCount : ℚ) / (spans.length : ℚ)) * 100
    let successRate := 100 - errorRate
    { avgLatency := avgLatency, p95Latency := p95Latency,
      p99Latency := p99Latency, errorRate := errorRate,
      successRate := successRate }

/-! ## Span tree builder (spanTree of ModernTraceTimeline / TraceTimeline)

The source builds, per invocation:

* a `Map` from span_id to a freshly copied `TimelineSpan` (last write wins on
  a duplicated id, the entry keeping its first-insertion position),
* then one pass over the map entries attaching each span to its resolved
  parent (pushing into the parent's `children` array and reading the parent's
  *current* `depth` field) or, when the parent reference is absent, empty or
  unresolvable, pushing it onto the root list,
* then a recursive stable sort of the root list and of every reachable
  `children` array by ascending `startMs`.

The functional model below indexes the map entries by position: `tlNodes`
is the entry list, `resolvedParent i` the attachment target of entry `i`,
`depthsPass` the one-pass depth array, `childrenPos`/`rootsPos` the children
and root position lists in push order, and `buildTree` the resulting
ownership forest, unrolled with explicit fuel (`spanTree` uses fuel equal to
the number of entries). -/

/-- A derived timeline span: the copied input span together with the fields
added by the builder (`children` is represented structurally by the forest,
not stored here). -/
structure TimelineSpan where
  span : Span
  depth : Nat
  startMs : Int
  durationMs : Int
  deriving DecidableEq, Inhabited

/-- `min(start_time)` over the whole (raw, not deduplicated) input set. -/
def minStartTime (spans : List Span) : Int :=
  jsMin (spans.map (fun s => s.start_time))

/-- The fresh `TimelineSpan` copy made from one input span (depth initially
0, timing relative to the global minimum start time). -/
def toTimeline (spans : List Span) (s : Span) : TimelineSpan :=
  let startMs := s.start_time - minStartTime spans
  let endMs := s.end_time - minStartTime spans
  { span := s, depth := 0, startMs := startMs, durationMs := endMs - startMs }

/-- The span map as an entry list: keyed by span_id, built with `Map.set`
over the input in order. -/
def spanEntries (spans : List Span) : List (String × TimelineSpan) :=
  spans.foldl (fun m s => jsMapSet m s.span_id (toTimeline spans s)) []

/-- The map values in entry order: one node per distinct span_id. -/
def tlNodes (spans : List Span) : List TimelineSpan :=
  (spanEntries spans).map (fun e => e.2)

/-- Number of nodes (distinct span ids). -/
def numNodes (spans : List Span) : Nat :=
  (tlNodes spans).length

/-- The attachment target of node `i`: `some j` when its parent_span_id is
truthy and present in the map (`j` the position of that entry), otherwise
`none` (the node is pushed onto the root list).  A self-parenting span
resolves to its own position. -/
def resolvedParent (spans : List Span) (i : Nat) : Option Nat :=
  match (tlNodes spans).get? i with
  | some ts =>
    match ts.span.parent_span_id with
    | some pid =>
      if pid ≠ "" then (tlNodes spans).findIdx? (fun n => n.span.span_id == pid)
      else none
    | none => none
  | none => none

/-- The one-pass depth computation: processing entries in map order, a node
with a resolved parent gets the parent's *current* depth plus one (the
parent's final depth if the parent was processed earlier, its initial 0
otherwise); roots keep depth 0. -/
def depthsPass (spans : List Span) : List Nat :=
  (List.range (numNodes spans)).foldl
    (fun ds i =>
      match resolvedParent spans i with
      | some j => ds.set i (ds.getD j 0 + 1)
      | none => ds)
    (List.replicate (numNodes spans) 0)

/-- Closed form of the one-pass depth: the parent's contribution is its own
closed-form depth when it precedes `i` in map order and 0 otherwise.
`depthsPass_eq_depthAt` below proves the two agree. -/
def depthAt (spans : List Span) (i : Nat) : Nat :=
  match resolvedParent spans i with
  | some j => (if _ : j < i then depthAt spans j else 0) + 1
  | none => 0

/-- The children of node `p` in push order (map order of the children). -/
def childrenPos (spans : List Span) (p : Nat) : List Nat :=
  (List.range (numNodes spans)).filter
    (fun i => resolvedParent spans i == some p)

/-- The root positions in push order. -/
def rootsPos (spans : List Span) : List Nat :=
  (List.range (numNodes spans)).filter
    (fun i => (resolvedParent spans i).isNone)

/-- `startMs` of the node at position `i`. -/
def startMsAt (spans : List Span) (i : Nat) : Int :=
  match (tlNodes spans).get? i with
  | some ts => ts.startMs
  | none => 0

/-- The stable ascending sort by `startMs` applied to every children array
and to the root list (`sortChildren` with the comparator `a.startMs -
b.startMs`; JS Array.prototype.sort is stable). -/
def sortByStart (spans : List Span) (l : List Nat) : List Nat :=
  l.insertionSort (fun i j => startMsAt spans i ≤ startMsAt spans j)

/-- The ownership forest produced by the builder. -/
inductive TimelineTree where
  | node (data : TimelineSpan) (children : List TimelineTree)
  deriving Inhabited

/-- The node data at position `i` with its final (one-pass) depth. -/
def nodeData (spans : List Span) (i : Nat) : TimelineSpan :=
  match (tlNodes spans).get? i with
  | some ts => { ts with depth := (depthsPass spans).getD i 0 }
  | none => default

/-- The subtree rooted at position `i`, unrolled to `fuel` levels of
children; children appear sorted by ascending `startMs`. -/
def buildTree (spans : List Span) : Nat → Nat → TimelineTree
  | 0, i => TimelineTree.node (nodeData spans i) []
  | fuel + 1, i =>
    TimelineTree.node (nodeData spans i)
      ((sortByStart spans (childrenPos spans i)).map (buildTree spans fuel))

/-- The forest rooted at the (sorted) root list, with explicit unrolling
fuel. -/
def spanTreeFuel (spans : List Span) (fuel : Nat) : List TimelineTree :=
  if spans.isEmpty then []
  else (sortByStart spans (rootsPos spans)).map (buildTree spans fuel)

/-- The span tree builder: `numNodes` levels of fuel always suffice (the
fuel-stability theorem for claim C1 shows larger fuel changes nothing). -/
def spanTree (spans : List Span) : List TimelineTree :=
  spanTreeFuel spans (numNodes spans)

/-- Iterated parent resolution: `parentIter k i` follows `resolvedParent`
`k` times from position `i` (`none` once the chain leaves the map or reaches
a root... it is `none` exactly when the chain hits a node with no resolved
parent within the first `k` steps). -/
def parentIter (spans : List Span) : Nat → Nat → Option Nat
  | 0, i => some i
  | k + 1, i =>
    match resolvedParent spans i with
    | some j => parentIter spans k j
    | none => none

/-- Position `i` lies on a parent cycle: following resolved parents returns
to `i` after a positive number of steps.  This covers a self-parenting span
(`m = 1`) and longer cycles. -/
def onCycle (spans : List Span) (i : Nat) : Prop :=
  ∃ m : Nat, 0 < m ∧ parentIter spans m i = some i

/-! ## Flattening and collapse (flattenedSpans, toggleCollapse) -/

/-- The set of collapsed span ids, as held in component state (a JS `Set`,
so membership is what matters and no duplicates arise). -/
def toggleCollapse (c : List String) (x : String) : List String :=
  if x ∈ c then c.erase x else x :: c

mutual

/-- Pre-order flattening of one subtree under a collapsed set: the node is
always emitted; its children are descended into only when the node itself is
not collapsed. -/
def flattenTree (c : List String) : TimelineTree → List TimelineSpan
  | TimelineTree.node d ch =>
    d :: (if d.span.span_id ∈ c then [] else flattenForest c ch)

/-- Pre-order flattening of a forest (the body of `flattenedSpans`). -/
def flattenForest (c : List String) : List TimelineTree → List TimelineSpan
  | [] => []
  | t :: ts => flattenTree c t ++ flattenForest c ts

end

/-- `flattenedSpans`: the render-ordered visible sequence for a forest and a
collapsed set. -/
def flattenedSpans (c : List String) (forest : List TimelineTree) :
    List TimelineSpan :=
  flattenForest c forest

mutual

/-- Pre-order traversal of one subtree annotating every node with the span
ids of its proper ancestors (innermost first).  Specification device for
claim C6; not part of the source. -/
def annTree (anc : List String) : TimelineTree → List (TimelineSpan × List String)
  | TimelineTree.node d ch => (d, anc) :: annForest (d.span.span_id :: anc) ch

/-- Pre-order ancestor-annotated traversal of a forest. -/
def annForest (anc : List String) : List TimelineTree → List (TimelineSpan × List String)
  | [] => []
  | t :: ts => annTree anc t ++ annForest anc ts

end

mutual

/-- All span ids of a subtree in pre-order. -/
def idsTree : TimelineTree → List String
  | TimelineTree.node d ch => d.span.span_id :: idsForest ch

/-- All span ids of a forest in pre-order. -/
def idsForest : List TimelineTree → List String
  | [] => []
  | t :: ts => idsTree t ++ idsForest ts

end

mutual

/-- The ids of the proper descendants of the node carrying id `x` within a
subtree ([] when `x` does not occur there). -/
def descTree (x : String) : TimelineTree → List String
  | TimelineTree.node d ch =>
    if d.span.span_id = x then idsForest ch else descForest x ch

/-- The ids of the proper descendants of the node carrying id `x` within a
forest. -/
def descForest (x : String) : List TimelineTree → List String
  | [] => []
  | t :: ts => descTree x t ++ descForest x ts

end

/-! ## Timeline layout quantities (maxTime, bar placement) -/

/-- The total-duration denominator of the timeline
(`max(end) - min(start)` over the full span set, 1 for an empty set). -/
def maxTime (spans : List Span) : Int :=
  if spans.isEmpty then 1
  else jsMax (spans.map (fun s => s.end_time)) - minStartTime spans

/-- The bar's left offset in percent:
`(span.startMs / maxTime) * 100`; `none` when the JS value is non-finite. -/
def barLeft (spans : List Span) (s : TimelineSpan) : Option ℚ :=
  (jsDiv (s.startMs : ℚ) ((maxTime spans : Int) : ℚ)).map (fun q => q * 100)

/-- The bar's width in percent:
`Math.max(2, (span.durationMs / maxTime) * 100)`; `none` when the JS value is
non-finite (here the division is applied to a non-negative numerator whenever
the theorems below use it, so a none result is NaN or +∞ and `Math.max`
propagates it). -/
def barWidth (spans : List Span) (s : TimelineSpan) : Option ℚ :=
  (jsDiv (s.durationMs : ℚ) ((maxTime spans : Int) : ℚ)).map
    (fun q => max 2 (q * 100))

/-! ## Explicit-heap translation of the builder (for the frame claim C9)

To express that the builder never mutates its input, the build is retraced on
an explicit object heap: the input Span objects occupy addresses
`0 .. n-1`; the loop over the input reads each cell and allocates a fresh
`TimelineSpan` copy at the next free address (`n + i`); the attachment pass
pushes child addresses into the `children` field of parent cells and writes
`depth` fields; the recursive sort rewrites `children` fields.  Every write
targets an address delivered by the span map, which holds only the fresh
copies. -/

/-- A heap node: the copied span fields plus the mutable builder fields,
with `children` holding heap addresses. -/
structure HNode where
  span : Span
  depth : Nat
  children : List Nat
  startMs : Int
  durationMs : Int
  deriving DecidableEq, Inhabited

/-- A heap cell: an input Span object or a freshly built TimelineSpan. -/
inductive HCell where
  | spanCell (s : Span)
  | nodeCell (n : HNode)
  deriving DecidableEq, Inhabited

/-- In-place update of the cell at address `a` (no-op outside the heap,
like the source which never constructs such an address). -/
def heapUpd (h : List HCell) (a : Nat) (f : HCell → HCell) : List HCell :=
  match h.get? a with
  | some c => h.set a (f c)
  | none => h

/-- `parent.children.push(childAddr)` on a node cell. -/
def pushChild (childAddr : Nat) : HCell → HCell
  | HCell.nodeCell n => HCell.nodeCell { n with children := n.children ++ [childAddr] }
  | c => c

/-- `span.depth = d` on a node cell. -/
def setDepth (d : Nat) : HCell → HCell
  | HCell.nodeCell n => HCell.nodeCell { n with depth := d }
  | c => c

/-- `children := cs` on a node cell (the in-place sort of a children
array). -/
def setChildren (cs : List Nat) : HCell → HCell
  | HCell.nodeCell n => HCell.nodeCell { n with children := cs }
  | c => c

/-- The allocation pass: for each input address, read the input cell and
append a fresh timeline copy, recording its address in the span map
(last write wins). -/
def allocPass (spans : List Span) (h0 : List HCell) :
    List HCell × List (String × Nat) :=
  (List.range spans.length).foldl
    (fun acc i =>
      match acc.1.get? i with
      | some (HCell.spanCell s) =>
        let nd : HNode :=
          { span := s, depth := 0, children := [],
            startMs := s.start_time - minStartTime spans,
            durationMs := (s.end_time - minStartTime spans) -
              (s.start_time - minStartTime spans) }
        (acc.1 ++ [HCell.nodeCell nd], jsMapSet acc.2 s.span_id acc.1.length)
      | _ => acc)
    (h0, [])

/-- The attachment pass over the map entries: push each node onto its
resolved parent's children and write its depth from the parent's current
depth, or push its address onto the root list. -/
def attachPass (entries : List (String × Nat)) (h : List HCell) :
    List HCell × List Nat :=
  entries.foldl
    (fun acc e =>
      match acc.1.get? e.2 with
      | some (HCell.nodeCell nd) =>
        (match nd.span.parent_span_id with
         | some pid =>
           if pid ≠ "" then
             match jsMapGet entries pid with
             | some pa =>
               let h1 := heapUpd acc.1 pa (pushChild e.2)
               let h2 :=
                 match h1.get? pa with
                 | some (HCell.nodeCell pn) => heapUpd h1 e.2 (setDepth (pn.depth + 1))
                 | _ => h1
               (h2, acc.2)
             | none => (acc.1, acc.2 ++ [e.2])
           else (acc.1, acc.2 ++ [e.2])
         | none => (acc.1, acc.2 ++ [e.2]))
      | _ => acc)
    (h, [])

/-- `startMs` of the node cell at a heap address (0 off the heap). -/
def heapStartMs (h : List HCell) (a : Nat) : Int :=
  match h.get? a with
  | some (HCell.nodeCell n) => n.startMs
  | _ => 0

/-- Stable ascending sort of a list of node addresses by `startMs`. -/
def sortAddrs (h : List HCell) (l : List Nat) : List Nat :=
  l.insertionSort (fun a b => heapStartMs h a ≤ heapStartMs h b)

/-- The recursive sort pass (`sortChildren`): for each address of the current
level, sort its children array in place and recurse into it.  `fuel` bounds
the recursion depth; the frame theorem holds for every fuel. -/
def sortPass : Nat → List Nat → List HCell → List HCell
  | 0, _, h => h
  | fuel + 1, addrs, h =>
    addrs.foldl
      (fun hh a =>
        match hh.get? a with
        | some (HCell.nodeCell nd) =>
          let cs := sortAddrs hh nd.children
          sortPass fuel cs (heapUpd hh a (setChildren cs))
        | _ => hh)
      h

/-- The whole build on the explicit heap: returns the final heap and the
sorted root address list.  An empty input returns before touching the heap. -/
def buildHeap (spans : List Span) (fuel : Nat) : List HCell × List Nat :=
  let h0 : List HCell := spans.map HCell.spanCell
  if spans.isEmpty then (h0, [])
  else
    let (h1, entries) := allocPass spans h0
    let (h2, roots) := attachPass entries h1
    let roots1 := sortAddrs h2 roots
    (sortPass fuel roots1 h2, roots1)

/-! ## Position-level view of the built forest

`buildTree` produces data-carrying trees; to reason about which map entries
appear where, the same construction is mirrored on entry positions. -/

/-- The positions visited by the subtree rooted at position `i` with the
given unrolling fuel, in pre-order. -/
def treePositions (spans : List Span) : Nat → Nat → List Nat
  | 0, i => [i]
  | fuel + 1, i =>
    i :: (sortByStart spans (childrenPos spans i)).flatMap (treePositions spans fuel)

/-- The positions of the whole built forest, in render pre-order. -/
def forestPositions (spans : List Span) : List Nat :=
  if spans.isEmpty then []
  else (sortByStart spans (rootsPos spans)).flatMap
    (treePositions spans (numNodes spans))

/-! ## Concrete instances used by witnesses and counterexamples -/

/-- A minimal span with the given id, parent reference and timing. -/
def mkSpan (id : String) (par : Option String) (st en : Int) : Span :=
  { span_id := id, trace_id := "trace-1", parent_span_id := par,
    name := "op", start_time := st, end_time := en, status_code := "OK",
    status_message := none, attributes := [], events := [], kind := "internal" }

/-- A span whose parent_span_id points to itself (spec scenario B). -/
def selfX : Span := mkSpan "X" (some "X") 0 10

/-- Child-before-parent input order: C (child of B), then B (child of A),
then the root A. -/
def chainC : Span := mkSpan "C" (some "B") 20 30

/-- See `chainC`. -/
def chainB : Span := mkSpan "B" (some "A") 10 40

/-- See `chainC`. -/
def chainA : Span := mkSpan "A" none 0 50

/-- The three-span chain listed children first. -/
def chainSpans : List Span := [chainC, chainB, chainA]

/-- A two-span parent cycle (A2 → B2 → A2) next to an ordinary root. -/
def cycA : Span := mkSpan "A2" (some "B2") 0 5

/-- See `cycA`. -/
def cycB : Span := mkSpan "B2" (some "A2") 1 6

/-- See `cycA`. -/
def cycRoot : Span := mkSpan "R2" none 0 9

/-- Cycle plus root input. -/
def cycSpans : List Span := [cycA, cycB, cycRoot]

/-- Scenario A of the spec: root R with children C1 (10..40) and C2
(50..90). -/
def scR : Span := mkSpan "R" none 0 100

/-- See `scR`. -/
def scC1 : Span := mkSpan "C1" (some "R") 10 40

/-- See `scR`. -/
def scC2 : Span := mkSpan "C2" (some "R") 50 90

/-- Scenario A input, children listed before the root. -/
def scenarioA : List Span := [scC2, scC1, scR]

/-- A single zero-duration span (start = end). -/
def zSpan : Span := mkSpan "Z" none 0 0

/-- A span that ended in error. -/
def errSpan : Span := { mkSpan "E" none 0 10 with status_code := "ERROR" }

/-- A minimal trace summary with the given id and timing. -/
def mkTrace (id : String) (st en : Int) : TraceSummary :=
  { trace_id := id, root_span_name := "root", session_id := none,
    start_time := st, end_time := en, span_count := 1 }

/-- A 100 ms trace. -/
def t100 : TraceSummary := mkTrace "t0" 0 100

/-- A trace whose duration is exactly the high status threshold (15000). -/
def tHigh : TraceSummary := mkTrace "t-high" 0 15000

/-- Scenario C of the spec: five traces of durations 100..500 ms. -/
def scenarioC : List TraceSummary :=
  [mkTrace "c1" 0 100, mkTrace "c2" 0 200, mkTrace "c3" 0 300,
   mkTrace "c4" 0 400, mkTrace "c5" 0 500]

/-- The heap invariant threaded through the build: every node cell's
children field holds only fresh addresses (at or beyond `n`). -/
def childrenFresh (n : Nat) (h : List HCell) : Prop :=
  ∀ a nd, h.get? a = some (HCell.nodeCell nd) → ∀ x ∈ nd.children, n ≤ x

mutual

/-- Node count of a subtree (induction measure for forest proofs). -/
def sizeT : TimelineTree → Nat
  | TimelineTree.node _ ch => 1 + sizeF ch

/-- Node count of a forest. -/
def sizeF : List TimelineTree → Nat
  | [] => 0
  | t :: ts => sizeT t + sizeF ts

end

/-! # Theorems -/

/-! ## C3: non-numeric duration bound (filter engine) -/

/-- C3: the claim requires a non-numeric `minDuration` bound such as "abc" to
be a no-op (the unfiltered set is returned).  The engine instead drops every
trace: `parseFloat("abc")` is NaN and `duration >= NaN` is false for every
trace, so the bound filters the whole set out.  Evaluated at the failing
input: one 100 ms trace, filter spec `{minDuration: "abc"}` (all other
options at their defaults) yields `[]`, while the same spec with the bound
absent yields the full list. -/
theorem filteredTraces_nan_min_bound_drops_all :
    filteredTraces 0 [t100] { defaultFilters with minDuration := "abc" } = [] ∧
    filteredTraces 0 [t100] defaultFilters = [t100] ∧
    jsParseFloat "abc" = none := by
  decide

/-! ## C7: duration-derived status buckets -/

/-- C7 fails as stated: a trace whose duration is exactly the high threshold
(15000 ms) is kept by the `slow` bucket and rejected by the `error` bucket
(the error test is strict `> 15000`), so with an `error` status filter the
engine returns `[]` where the claim requires the trace to be bucketed as
error. -/
theorem statusThreshold_boundary_cex :
    filteredTraces 0 [tHigh]
        { defaultFilters with status := StatusFilter.error } = [] ∧
    statusKeep StatusFilter.error (traceDuration tHigh) = false ∧
    statusKeep StatusFilter.slow (traceDuration tHigh) = true := by
  decide

/-- Helper for C7: with only the status option active, the engine returns
exactly the traces of the selected bucket (up to the final stable sort). -/
theorem mem_filteredTraces_status (now : Int) (traces : List TraceSummary)
    (st : StatusFilter) (hst : st ≠ StatusFilter.all) (t : TraceSummary) :
    t ∈ filteredTraces now traces { defaultFilters with status := st } ↔
      t ∈ traces ∧ statusKeep st (traceDuration t) = true := by
  unfold filteredTraces defaultFilters
  simp only [ne_eq, not_true_eq_false, if_false, if_neg, hst, if_true,
    not_false_eq_true, if_pos]
  rw [(List.perm_insertionSort _ _).mem_iff]
  simp [List.mem_filter, hst]

/-- C7 (amended): the duration buckets used by the engine are
success ⇐ duration ≤ 5000 (at or below the low threshold),
slow ⇐ 5000 < duration ≤ 15000 (strictly above low, at or below high),
error ⇐ duration > 15000 (strictly above the high threshold);
the three buckets partition every duration, a duration exactly at the high
threshold falling in the slow bucket, not error; and with a single active
status filter the engine keeps exactly the traces of the selected bucket. -/
theorem statusKeep_partition_spec (d : Int) :
    (statusKeep StatusFilter.success d = decide (d ≤ 5000)) ∧
    (statusKeep StatusFilter.slow d = decide (5000 < d ∧ d ≤ 15000)) ∧
    (statusKeep StatusFilter.error d = decide (15000 < d)) ∧
    ((statusKeep StatusFilter.success d = true ∧
        statusKeep StatusFilter.slow d = false ∧
        statusKeep StatusFilter.error d = false) ∨
      (statusKeep StatusFilter.success d = false ∧
        statusKeep StatusFilter.slow d = true ∧
        statusKeep StatusFilter.error d = false) ∨
      (statusKeep StatusFilter.success d = false ∧
        statusKeep StatusFilter.slow d = false ∧
        statusKeep StatusFilter.error d = true)) ∧
    (∀ now traces st t, st ≠ StatusFilter.all →
      (t ∈ filteredTraces now traces { defaultFilters with status := st } ↔
        t ∈ traces ∧ statusKeep st (traceDuration t) = true)) := by
  refine ⟨rfl, rfl, rfl, ?_, ?_⟩
  · by_cases h1 : d ≤ 5000
    · exact Or.inl (by simp [statusKeep, h1]; omega)
    · by_cases h2 : d ≤ 15000
      · exact Or.inr (Or.inl (by simp [statusKeep, h1, h2]; omega))
      · exact Or.inr (Or.inr (by simp [statusKeep, h1, h2]; omega))
  · intro now traces st t hst
    exact mem_filteredTraces_status now traces st hst t

/-- Witness for C7: at duration 4000 the success bucket applies, and the
engine with a success filter keeps the 100 ms trace `t100`. -/
theorem statusKeep_partition_spec_witness :
    statusKeep StatusFilter.success 4000 = decide ((4000 : Int) ≤ 5000) ∧
    t100 ∈ filteredTraces 0 [t100]
      { defaultFilters with status := StatusFilter.success } :=
  ⟨(statusKeep_partition_spec 4000).1,
    ((statusKeep_partition_spec (traceDuration t100)).2.2.2.2 0 [t100]
      StatusFilter.success t100 (by decide)).mpr ⟨by decide, by decide⟩⟩

/-! ## C5: timeline denominator guard -/

/-- C5 fails as stated: the division-by-zero guard covers only the empty
span set.  For the single zero-duration span `Z` (start = end) the
denominator `maxTime` is 0, not treated as ≥ 1 ms, and the bar width and
left offset of the one visible span are non-finite (0/0, NaN). -/
theorem maxTime_zero_extent_cex :
    maxTime [zSpan] = 0 ∧
    flattenedSpans [] (spanTree [zSpan]) = [nodeData [zSpan] 0] ∧
    barWidth [zSpan] (nodeData [zSpan] 0) = none ∧
    barLeft [zSpan] (nodeData [zSpan] 0) = none := by
  decide

/-- C5 (amended): the zero-denominator guard applies only to the empty span
set (where `maxTime` is 1); whenever the total extent `maxTime` is positive
— which a non-empty set does not guarantee, as the counterexample shows —
every span's bar width is a well-defined finite number of at least the
minimum width 2, and its left offset is well-defined and finite. -/
theorem maxTime_guard_spec :
    maxTime [] = 1 ∧
    ∀ spans s, 0 < maxTime spans →
      (∃ w, barWidth spans s = some w ∧ 2 ≤ w) ∧
      (∃ q, barLeft spans s = some q) := by
  refine ⟨rfl, ?_⟩
  intro spans s h
  have hne : ((maxTime spans : Int) : ℚ) ≠ 0 := by
    exact_mod_cast Int.ne_of_gt h
  refine ⟨⟨max 2 ((s.durationMs : ℚ) / ((maxTime spans : Int) : ℚ) * 100), ?_, le_max_left _ _⟩,
    ⟨(s.startMs : ℚ) / ((maxTime spans : Int) : ℚ) * 100, ?_⟩⟩
  · simp [barWidth, jsDiv, hne]
  · simp [barLeft, jsDiv, hne]

/-- Witness for C5: for the 10 ms span `selfX` alone, `maxTime` is positive
and the theorem yields a finite width of at least 2. -/
theorem maxTime_guard_spec_witness :
    (0 : Int) < maxTime [selfX] ∧
    ∃ w, barWidth [selfX] (nodeData [selfX] 0) = some w ∧ 2 ≤ w :=
  ⟨by decide,
    ((maxTime_guard_spec.2 [selfX] (nodeData [selfX] 0) (by decide)).1)⟩

/-! ## C4: nearest-rank percentiles -/

/-- `x || 0` on a list element is plain safe indexing with default 0 when
the elements are (finite) numbers: a falsy stored value can only be 0. -/
theorem jsIndexOr0_eq_getD (l : List ℚ) (i : Nat) :
    jsIndexOr0 l i = l.getD i 0 := by
  unfold jsIndexOr0
  rcases h : l.get? i with _ | v
  · simp [List.getD, ← List.get?_eq_getElem?, h]
  · by_cases hv : v = 0 <;>
      simp [List.getD, ← List.get?_eq_getElem?, h, hv]

/-- C4: for a non-empty trace list the p95 and p99 latencies are exactly the
elements at indices ⌊0.95·n⌋ and ⌊0.99·n⌋ of the latency list sorted
ascending (nearest-rank, both indices in range, no interpolation); both are
0 for empty input; and on scenario C (durations 100..500 ms) p95 = 500 and
avgLatency = 300. -/
theorem metrics_percentiles_spec (traces : List TraceSummary) (spans : List Span) :
    (traces ≠ [] →
      (sortedLatencies traces).Sorted (fun a b => a ≤ b) ∧
      (sortedLatencies traces).Perm (latencies traces) ∧
      (sortedLatencies traces).length * 95 / 100 < (sortedLatencies traces).length ∧
      (sortedLatencies traces).length * 99 / 100 < (sortedLatencies traces).length ∧
      (metricsOf traces spans).p95Latency =
        (sortedLatencies traces).getD
          ((sortedLatencies traces).length * 95 / 100) 0 ∧
      (metricsOf traces spans).p99Latency =
        (sortedLatencies traces).getD
          ((sortedLatencies traces).length * 99 / 100) 0) ∧
    ((metricsOf [] spans).p95Latency = 0 ∧ (metricsOf [] spans).p99Latency = 0) ∧
    (metricsOf scenarioC []).p95Latency = 500 ∧
    (metricsOf scenarioC []).avgLatency = 300 := by
  refine ⟨?_, ⟨rfl, rfl⟩, by decide, ?_⟩
  case refine_2 =>
    show (latencies scenarioC).sum / ((latencies scenarioC).length : ℚ) = 300
    norm_num [scenarioC, latencies, mkTrace, traceDuration]
  intro h
  have hne : ¬ traces.isEmpty := by
    simpa [List.isEmpty_iff] using h
  have hlen : (sortedLatencies traces).length = traces.length := by
    unfold sortedLatencies
    rw [(List.perm_insertionSort _ _).length_eq]
    simp [latencies]
  have hpos : 0 < (sortedLatencies traces).length := by
    rw [hlen]
    exact List.length_pos.mpr h
  refine ⟨List.sorted_insertionSort _ _, List.perm_insertionSort _ _, ?_, ?_, ?_, ?_⟩
  · exact Nat.div_lt_of_lt_mul (by omega)
  · exact Nat.div_lt_of_lt_mul (by omega)
  · simp only [metricsOf, hne, if_false, Bool.false_eq_true]
    exact jsIndexOr0_eq_getD _ _
  · simp only [metricsOf, hne, if_false, Bool.false_eq_true]
    exact jsIndexOr0_eq_getD _ _

/-- Witness for C4: scenario C has five traces, its p95 index is
⌊5·0.95⌋ = 4, and the p95 value is the last element of the sorted latency
list. -/
theorem metrics_percentiles_spec_witness :
    (sortedLatencies scenarioC).length * 95 / 100 <
      (sortedLatencies scenarioC).length ∧
    (metricsOf scenarioC []).p95Latency =
      (sortedLatencies scenarioC).getD
        ((sortedLatencies scenarioC).length * 95 / 100) 0 :=
  ⟨((metrics_percentiles_spec scenarioC []).1 (by decide)).2.2.1,
    ((metrics_percentiles_spec scenarioC []).1 (by decide)).2.2.2.2.1⟩

/-! ## C8: error rate and success rate -/

/-- C8 fails as stated: with an empty trace-summary list and one ERROR span
the aggregator returns its all-zero record before looking at the spans, so
errorRate is 0 (the claim requires (1/1)·100 = 100) and
errorRate + successRate is 0, not 100. -/
theorem errorRate_empty_traces_cex :
    (metricsOf [] [errSpan]).errorRate = 0 ∧
    (metricsOf [] [errSpan]).errorRate + (metricsOf [] [errSpan]).successRate = 0 ∧
    ¬ ((metricsOf [] [errSpan]).errorRate =
        ((([errSpan].filter (fun s => s.status_code == "ERROR")).length : ℚ) /
            (([errSpan] : List Span).length : ℚ)) * 100) := by
  have h1 : (metricsOf [] [errSpan]).errorRate = 0 := rfl
  have h2 : (metricsOf [] [errSpan]).successRate = 0 := rfl
  have h3 : ([errSpan].filter (fun s => s.status_code == "ERROR")).length = 1 := by
    decide
  refine ⟨h1, ?_, ?_⟩
  · rw [h1, h2]
    norm_num
  · rw [h1, h3]
    norm_num

/-- C8 (amended): when the trace-summary input is non-empty, errorRate is
(count of ERROR spans / span count) × 100 (0 when there are no spans),
successRate is 100 − errorRate, and the two sum to exactly 100.  When the
trace-summary input is empty the whole record is zero regardless of the
span input, so both rates are 0 and their sum is 0. -/
theorem errorRate_successRate_spec (traces : List TraceSummary)
    (spans : List Span) (h : traces ≠ []) :
    ((metricsOf traces spans).errorRate =
      (if spans.length = 0 then 0
       else (((spans.filter (fun s => s.status_code == "ERROR")).length : ℚ) /
          (spans.length : ℚ)) * 100)) ∧
    (metricsOf traces spans).successRate =
      100 - (metricsOf traces spans).errorRate ∧
    (metricsOf traces spans).errorRate +
      (metricsOf traces spans).successRate = 100 ∧
    ∀ spans2, (metricsOf [] spans2).errorRate = 0 ∧
      (metricsOf [] spans2).successRate = 0 := by
  have hne : ¬ traces.isEmpty := by
    simpa [List.isEmpty_iff] using h
  refine ⟨?_, ?_, ?_, fun spans2 => ⟨rfl, rfl⟩⟩
  · simp [metricsOf, hne]
  · simp [metricsOf, hne]
  · simp only [metricsOf, hne, if_false, Bool.false_eq_true]
    ring

/-- Witness for C8: one trace and one ERROR span give errorRate 100 and
a rate sum of exactly 100. -/
theorem errorRate_successRate_spec_witness :
    (metricsOf [t100] [errSpan]).errorRate +
      (metricsOf [t100] [errSpan]).successRate = 100 :=
  (errorRate_successRate_spec [t100] [errSpan] (by decide)).2.2.1

/-! ## C2: depth of a node versus its resolved parent -/

/-- A resolved parent target is a valid map position, and so is the child. -/
theorem resolvedParent_lt (spans : List Span) (i j : Nat)
    (h : resolvedParent spans i = some j) :
    i < numNodes spans ∧ j < numNodes spans := by
  unfold resolvedParent at h
  split at h
  case _ ts hts =>
    refine ⟨(List.get?_eq_some.mp hts).1, ?_⟩
    split at h
    case _ pid hpid =>
      split at h
      · exact (List.findIdx?_eq_some_iff_findIdx_eq.mp h).1
      · cases h
    case _ => cases h
  case _ => cases h

/-- Positions outside the map have no resolved parent. -/
theorem resolvedParent_none_of_ge (spans : List Span) (i : Nat)
    (h : numNodes spans ≤ i) : resolvedParent spans i = none := by
  unfold resolvedParent
  have : (tlNodes spans).get? i = none := by
    rw [List.get?_eq_none]
    exact h
  rw [this]

/-- Unfolding `depthAt` at a root position. -/
theorem depthAt_none (spans : List Span) (i : Nat)
    (h : resolvedParent spans i = none) : depthAt spans i = 0 := by
  rw [depthAt, h]

/-- Unfolding `depthAt` at an attached position. -/
theorem depthAt_some (spans : List Span) (i j : Nat)
    (h : resolvedParent spans i = some j) :
    depthAt spans i = (if _ : j < i then depthAt spans j else 0) + 1 := by
  rw [depthAt, h]

/-- The one-pass depth array has one slot per map entry. -/
theorem depthsPass_length (spans : List Span) :
    (depthsPass spans).length = numNodes spans := by
  unfold depthsPass
  have : ∀ (l : List Nat) (r : List Nat),
      (r.foldl (fun ds i =>
        match resolvedParent spans i with
        | some j => ds.set i (ds.getD j 0 + 1)
        | none => ds) l).length = l.length := by
    intro l r
    induction r generalizing l with
    | nil => rfl
    | cons a as ih =>
      simp only [List.foldl_cons]
      rcases resolvedParent spans a with _ | j
      · exact ih l
      · rw [ih]
        simp
  rw [this]
  simp

/-- `getD` after an in-range `set` at the same index. -/
theorem getD_set_self_nat (l : List Nat) (i v : Nat) (h : i < l.length) :
    (l.set i v).getD i 0 = v := by
  simp only [List.getD]
  rw [List.get?_set_eq_of_lt _ h]
  rfl

/-- `getD` after a `set` at a different index. -/
theorem getD_set_ne_nat (l : List Nat) (i j v : Nat) (h : i ≠ j) :
    (l.set i v).getD j 0 = l.getD j 0 := by
  simp only [List.getD]
  rw [List.get?_set_ne _ _ h]

/-- The one-pass depth array agrees with the closed form `depthAt`
everywhere (and is 0 outside the map). -/
theorem depthsPass_getD (spans : List Span) (i : Nat) :
    (depthsPass spans).getD i 0 =
      if i < numNodes spans then depthAt spans i else 0 := by
  unfold depthsPass
  suffices h : ∀ k, k ≤ numNodes spans →
      ∀ i, ((List.range k).foldl (fun ds i =>
        match resolvedParent spans i with
        | some j => ds.set i (ds.getD j 0 + 1)
        | none => ds) (List.replicate (numNodes spans) 0)).getD i 0 =
        if i < k then depthAt spans i else 0 by
    have := h (numNodes spans) le_rfl i
    rw [this]
  intro k
  induction k with
  | zero =>
    intro _ i
    simp only [List.range_zero, List.foldl_nil, Nat.not_lt_zero, if_false]
    simp only [List.getD]
    rcases hget : (List.replicate (numNodes spans) 0).get? i with _ | v
    · rfl
    · have hv : v = 0 := List.eq_of_mem_replicate (List.get?_mem hget)
      simp [hv]
  | succ k ih =>
    intro hk i
    have hk' : k ≤ numNodes spans := Nat.le_of_succ_le hk
    rw [List.range_succ, List.foldl_append, List.foldl_cons, List.foldl_nil]
    rcases hrp : resolvedParent spans k with _ | j
    · rw [ih hk' i]
      by_cases hik : i < k
      · rw [if_pos hik, if_pos (Nat.lt_succ_of_lt hik)]
      · by_cases hik' : i < k + 1
        · have : i = k := by omega
          subst this
          rw [if_neg hik, if_pos hik']
          rw [depthAt_none spans i hrp]
        · rw [if_neg hik, if_neg hik']
    · have hlen : ((List.range k).foldl (fun ds i =>
          match resolvedParent spans i with
          | some j => ds.set i (ds.getD j 0 + 1)
          | none => ds) (List.replicate (numNodes spans) 0)).length =
          numNodes spans := by
        have : ∀ (l : List Nat) (r : List Nat),
            (r.foldl (fun ds i =>
              match resolvedParent spans i with
              | some j => ds.set i (ds.getD j 0 + 1)
              | none => ds) l).length = l.length := by
          intro l r
          induction r generalizing l with
          | nil => rfl
          | cons a as ih2 =>
            simp only [List.foldl_cons]
            rcases resolvedParent spans a with _ | j'
            · exact ih2 l
            · rw [ih2]
              simp
        rw [this]
        simp
      have hkm : k < numNodes spans := (resolvedParent_lt spans k j hrp).1
      by_cases hik : i = k
      · subst hik
        rw [getD_set_self_nat _ _ _ (by rw [hlen]; exact hkm)]
        rw [if_pos (Nat.lt_succ_self i)]
        rw [depthAt_some spans i j hrp]
        rw [ih hk' j]
        by_cases hji : j < i
        · rw [if_pos hji, dif_pos hji]
        · rw [if_neg hji, dif_neg hji]
      · rw [getD_set_ne_nat _ _ _ _ (fun he => hik he.symm)]
        rw [ih hk' i]
        by_cases hik' : i < k
        · rw [if_pos hik', if_pos (by omega)]
        · rw [if_neg hik', if_neg (by omega)]

/-- The depth stored on a forest node is the one-pass depth of its
position. -/
theorem nodeData_depth (spans : List Span) (i : Nat)
    (h : i < numNodes spans) :
    (nodeData spans i).depth = (depthsPass spans).getD i 0 := by
  unfold nodeData
  rcases hi : (tlNodes spans).get? i with _ | ts
  · rw [List.get?_eq_none] at hi
    exact absurd h (by simpa [numNodes] using hi)
  · rfl

/-- C2 fails as stated: in the child-before-parent input
[C (child of B), B (child of A), A], the one-pass depth computation reads
B's depth before B has been attached, so C ends with depth 1 while its
resolved parent B also has depth 1 — not depth(B) + 1 = 2. -/
theorem depth_parent_cex :
    resolvedParent chainSpans 0 = some 1 ∧
    (nodeData chainSpans 0).depth = 1 ∧
    (nodeData chainSpans 1).depth = 1 ∧
    (nodeData chainSpans 0).depth ≠ (nodeData chainSpans 1).depth + 1 := by
  decide

/-- C2 (amended): every root has depth 0 unconditionally; and whenever every
resolved parent precedes its child in map (first-occurrence input) order —
in particular when parents are listed before their children — every
non-root node's depth is its resolved parent's depth plus one. -/
theorem depth_parent_spec (spans : List Span) :
    (∀ i, i < numNodes spans → resolvedParent spans i = none →
      (nodeData spans i).depth = 0) ∧
    ((∀ i j, resolvedParent spans i = some j → j < i) →
      ∀ i j, resolvedParent spans i = some j →
        (nodeData spans i).depth = (nodeData spans j).depth + 1) := by
  constructor
  · intro i hi hrp
    rw [nodeData_depth spans i hi, depthsPass_getD, if_pos hi]
    exact depthAt_none spans i hrp
  · intro hord i j hrp
    have hlt := resolvedParent_lt spans i j hrp
    rw [nodeData_depth spans i hlt.1, nodeData_depth spans j hlt.2,
      depthsPass_getD, depthsPass_getD, if_pos hlt.1, if_pos hlt.2]
    rw [depthAt_some spans i j hrp]
    rw [dif_pos (hord i j hrp)]

/-- Witness for C2: the parent-first list [A, B, C] satisfies the ordering
hypothesis, and there C's depth is B's depth plus one. -/
theorem depth_parent_spec_witness :
    (nodeData [chainA, chainB, chainC] 2).depth =
      (nodeData [chainA, chainB, chainC] 1).depth + 1 :=
  (depth_parent_spec [chainA, chainB, chainC]).2
    (by
      intro i j h
      have hi : i < numNodes [chainA, chainB, chainC] :=
        (resolvedParent_lt _ i j h).1
      have h3 : numNodes [chainA, chainB, chainC] = 3 := by decide
      rw [h3] at hi
      interval_cases i
      · rw [show resolvedParent [chainA, chainB, chainC] 0 = none from by decide] at h
        cases h
      · rw [show resolvedParent [chainA, chainB, chainC] 1 = some 0 from by decide] at h
        simp at h
        omega
      · rw [show resolvedParent [chainA, chainB, chainC] 2 = some 1 from by decide] at h
        simp at h
        omega)
    2 1 (by decide)

/-! ## Parent-chain machinery for C1 and C10 -/

/-- Splitting an iterated parent resolution. -/
theorem parentIter_add (spans : List Span) (a b i : Nat) :
    parentIter spans (a + b) i =
      match parentIter spans a i with
      | some j => parentIter spans b j
      | none => none := by
  induction a generalizing i with
  | zero => simp [parentIter]
  | succ a ih =>
    have hs : a + 1 + b = (a + b) + 1 := by omega
    rw [hs]
    show (match resolvedParent spans i with
      | some j => parentIter spans (a + b) j
      | none => none) = _
    rcases hrp : resolvedParent spans i with _ | j
    · simp [parentIter, hrp]
    · simp only [parentIter, hrp]
      exact ih j

/-- A cycle can be traversed any number of times. -/
theorem parentIter_cycle_mul (spans : List Span) (c i : Nat)
    (h : parentIter spans c i = some i) (t : Nat) :
    parentIter spans (t * c) i = some i := by
  induction t with
  | zero => simp [parentIter]
  | succ t ih =>
    have hs : (t + 1) * c = t * c + c := by ring
    rw [hs, parentIter_add, ih]
    exact h

/-- From a position on a parent cycle, iterated resolution never leaves the
map: every number of steps lands on some position. -/
theorem onCycle_isSome (spans : List Span) (i : Nat) (h : onCycle spans i)
    (k : Nat) : (parentIter spans k i).isSome := by
  obtain ⟨m, hm, hcyc⟩ := h
  have hk : k ≤ k * m := Nat.le_mul_of_pos_right k hm
  have hfull : parentIter spans (k * m) i = some i :=
    parentIter_cycle_mul spans m i hcyc k
  have hsplit : k * m = k + (k * m - k) := by omega
  rw [hsplit, parentIter_add] at hfull
  rcases hik : parentIter spans k i with _ | j
  · rw [hik] at hfull
    cases hfull
  · rfl

/-- Every member of a children list is attached to that parent. -/
theorem rp_of_mem_childrenPos (spans : List Span) (p c : Nat)
    (h : c ∈ childrenPos spans p) : resolvedParent spans c = some p := by
  unfold childrenPos at h
  have := (List.mem_filter.mp h).2
  simpa using this

/-- Members of a children list are valid positions. -/
theorem mem_childrenPos_lt (spans : List Span) (p c : Nat)
    (h : c ∈ childrenPos spans p) : c < numNodes spans := by
  unfold childrenPos at h
  have := (List.mem_filter.mp h).1
  simpa using this

/-- Sorting a children (or root) list does not change its members. -/
theorem mem_sortByStart (spans : List Span) (l : List Nat) (c : Nat) :
    c ∈ sortByStart spans l ↔ c ∈ l :=
  (List.perm_insertionSort _ _).mem_iff

/-- Roots carry no resolved parent. -/
theorem rp_of_mem_rootsPos (spans : List Span) (r : Nat)
    (h : r ∈ rootsPos spans) : resolvedParent spans r = none := by
  unfold rootsPos at h
  have := (List.mem_filter.mp h).2
  simpa [Option.isNone_iff_eq_none] using this

/-- Roots are valid positions. -/
theorem mem_rootsPos_lt (spans : List Span) (r : Nat)
    (h : r ∈ rootsPos spans) : r < numNodes spans := by
  unfold rootsPos at h
  have := (List.mem_filter.mp h).1
  simpa using this

/-- Every position in a built subtree reaches the subtree's top via the
parent chain. -/
theorem chain_of_mem_treePositions (spans : List Span) (f i j : Nat)
    (h : j ∈ treePositions spans f i) :
    ∃ k, parentIter spans k j = some i := by
  induction f generalizing i with
  | zero =>
    simp [treePositions] at h
    exact ⟨0, by simp [parentIter, h]⟩
  | succ f ih =>
    rw [treePositions] at h
    rcases List.mem_cons.mp h with hji | hmem
    · exact ⟨0, by simp [parentIter, hji]⟩
    · rcases List.mem_flatMap.mp hmem with ⟨c, hc, hjc⟩
      have hrc : resolvedParent spans c = some i :=
        rp_of_mem_childrenPos spans i c ((mem_sortByStart spans _ c).mp hc)
      obtain ⟨k, hk⟩ := ih c hjc
      refine ⟨k + 1, ?_⟩
      rw [parentIter_add, hk]
      simp [parentIter, hrc]

/-- C1 fails as stated: the self-parenting span X resolves its parent to
itself, is attached as its own child, and is never pushed onto the root
list; the produced forest is empty instead of containing X as a root. -/
theorem selfCycle_not_root_cex :
    resolvedParent [selfX] 0 = some 0 ∧
    rootsPos [selfX] = [] ∧
    childrenPos [selfX] 0 = [0] ∧
    spanTree [selfX] = [] := by
  refine ⟨by decide, by decide, by decide, ?_⟩
  show spanTreeFuel [selfX] (numNodes [selfX]) = []
  have h1 : numNodes [selfX] = 1 := by decide
  rw [h1]
  show (if ([selfX] : List Span).isEmpty then []
    else (sortByStart [selfX] (rootsPos [selfX])).map (buildTree [selfX] 1)) = []
  have h2 : rootsPos [selfX] = [] := by decide
  simp [h2, sortByStart]

/-- A position on a parent cycle is never pushed onto the root list. -/
theorem onCycle_not_root (spans : List Span) (i : Nat) (h : onCycle spans i) :
    i ∉ rootsPos spans := by
  intro hmem
  have h1 := onCycle_isSome spans i h 1
  have h2 : parentIter spans 1 i = none := by
    show (match resolvedParent spans i with
      | some j => parentIter spans 0 j
      | none => none) = none
    rw [rp_of_mem_rootsPos spans i hmem]
  rw [h2] at h1
  cases h1

/-- A position on a parent cycle never occurs in a subtree grown from a
root: its parent chain never terminates, while any member of such a subtree
reaches the root, whose chain ends. -/
theorem onCycle_not_mem_tree (spans : List Span) (i : Nat)
    (h : onCycle spans i) (f r : Nat) (hr : r ∈ rootsPos spans) :
    i ∉ treePositions spans f r := by
  intro hmem
  obtain ⟨k, hk⟩ := chain_of_mem_treePositions spans f r i hmem
  have hnone : parentIter spans (k + 1) i = none := by
    rw [parentIter_add, hk]
    show (match resolvedParent spans r with
      | some j => parentIter spans 0 j
      | none => none) = none
    rw [rp_of_mem_rootsPos spans r hr]
  have := onCycle_isSome spans i h (k + 1)
  rw [hnone] at this
  cases this

/-- One step of the chain lands on a valid position. -/
theorem parentIter_succ_lt (spans : List Span) (t i j : Nat)
    (h : parentIter spans (t + 1) i = some j) : j < numNodes spans := by
  rw [parentIter_add] at h
  rcases ht : parentIter spans t i with _ | z
  · rw [ht] at h
    cases h
  · rw [ht] at h
    have h' : parentIter spans 1 z = some j := h
    rcases hz : resolvedParent spans z with _ | j'
    · have hnone : parentIter spans 1 z = none := by
        simp [parentIter, hz]
      rw [hnone] at h'
      cases h'
    · have hsome : parentIter spans 1 z = some j' := by
        simp [parentIter, hz]
      rw [hsome] at h'
      cases h'
      exact (resolvedParent_lt spans z _ hz).2

/-- A position visited twice on a root-terminated chain is impossible:
the repeat would close a cycle, and a cyclic position cannot reach the
root's chain end. -/
theorem chain_no_repeat (spans : List Span) (i k r : Nat)
    (hchain : parentIter spans k i = some r)
    (hroot : resolvedParent spans r = none)
    (a b y : Nat) (hab : a < b) (hbk : b ≤ k)
    (ha : parentIter spans a i = some y)
    (hb : parentIter spans b i = some y) : False := by
  have hcyc : onCycle spans y := by
    refine ⟨b - a, by omega, ?_⟩
    have h2 : parentIter spans (a + (b - a)) i = some y := by
      have he : a + (b - a) = b := by omega
      rw [he]
      exact hb
    rw [parentIter_add, ha] at h2
    exact h2
  have hreach : parentIter spans (k - a) y = some r := by
    have h2 := hchain
    have he : k = a + (k - a) := by omega
    rw [he, parentIter_add, ha] at h2
    exact h2
  have hnone : parentIter spans (k - a + 1) y = none := by
    rw [parentIter_add, hreach]
    have h1 : parentIter spans 1 r = none := by
      simp [parentIter, hroot]
    exact h1
  have := onCycle_isSome spans y hcyc (k - a + 1)
  rw [hnone] at this
  cases this

/-- A chain that terminates at a root has fewer steps than there are map
entries (pigeonhole over its pairwise-distinct positions). -/
theorem chain_bound (spans : List Span) (i k r : Nat)
    (hchain : parentIter spans k i = some r)
    (hroot : resolvedParent spans r = none)
    (hi : i < numNodes spans) : k < numNodes spans := by
  have hdef : ∀ t, t ≤ k → ∃ y, parentIter spans t i = some y := by
    intro t ht
    rcases hy : parentIter spans t i with _ | y
    · exfalso
      have hk : parentIter spans k i = none := by
        have hsplit : k = t + (k - t) := by omega
        rw [hsplit, parentIter_add, hy]
      rw [hk] at hchain
      cases hchain
    · exact ⟨y, rfl⟩
  have hval : ∀ t : Fin (k + 1), ∃ y, parentIter spans t.1 i = some y :=
    fun t => hdef t.1 (Nat.lt_succ_iff.mp t.2)
  choose c hc using hval
  have hinj : Function.Injective c := by
    intro a b hab
    by_contra hne
    rcases lt_trichotomy a.1 b.1 with hlt | heq | hgt
    · exact chain_no_repeat spans i k r hchain hroot a.1 b.1 (c a) hlt
        (Nat.lt_succ_iff.mp b.2) (hc a) (hab ▸ hc b)
    · exact hne (Fin.ext heq)
    · exact chain_no_repeat spans i k r hchain hroot b.1 a.1 (c b) hgt
        (Nat.lt_succ_iff.mp a.2) (hc b) (hab ▸ hc a)
  have hlt : ∀ t : Fin (k + 1), c t < numNodes spans := by
    intro t
    rcases ht : t.1 with _ | t'
    · have hct := hc t
      rw [ht] at hct
      simp [parentIter] at hct
      rw [← hct]
      exact hi
    · have hct := hc t
      rw [ht] at hct
      exact parentIter_succ_lt spans t' i (c t) hct
  have hcard : k + 1 ≤ numNodes spans := by
    have := Fintype.card_le_of_injective
      (fun t : Fin (k + 1) => (⟨c t, hlt t⟩ : Fin (numNodes spans)))
      (fun a b hab => hinj (by simpa using congrArg Fin.val hab))
    simpa using this
  omega

/-- Unrolling fuel beyond what any root-terminated chain needs changes
nothing: one extra level of fuel is absorbed. -/
theorem buildTree_stable (spans : List Span) :
    ∀ f i k r, parentIter spans k i = some r →
      resolvedParent spans r = none → i < numNodes spans →
      numNodes spans - k ≤ f →
      buildTree spans f i = buildTree spans (f + 1) i := by
  intro f
  induction f with
  | zero =>
    intro i k r hc hr hi hf
    have hk := chain_bound spans i k r hc hr hi
    exact absurd hf (by omega)
  | succ f ih =>
    intro i k r hc hr hi hf
    show TimelineTree.node (nodeData spans i)
        ((sortByStart spans (childrenPos spans i)).map (buildTree spans f)) =
      TimelineTree.node (nodeData spans i)
        ((sortByStart spans (childrenPos spans i)).map (buildTree spans (f + 1)))
    congr 1
    apply List.map_congr_left
    intro c hcmem
    have hrc : resolvedParent spans c = some i :=
      rp_of_mem_childrenPos spans i c ((mem_sortByStart spans _ c).mp hcmem)
    have hcm : c < numNodes spans :=
      mem_childrenPos_lt spans i c ((mem_sortByStart spans _ c).mp hcmem)
    have hchain' : parentIter spans (k + 1) c = some r := by
      have h1k : parentIter spans (1 + k) c = some r := by
        rw [parentIter_add]
        have h1 : parentIter spans 1 c = some i := by
          simp [parentIter, hrc]
        rw [h1]
        exact hc
      rwa [Nat.add_comm] at h1k
    exact ih c (k + 1) r hchain' hr hcm (by omega)

/-- Any fuel at or above `numNodes` builds the same subtree from a root. -/
theorem buildTree_ge (spans : List Span) (r : Nat) (hr : r ∈ rootsPos spans) :
    ∀ d, buildTree spans (numNodes spans + d) r =
      buildTree spans (numNodes spans) r := by
  intro d
  induction d with
  | zero => rfl
  | succ d ih =>
    have hstep := buildTree_stable spans (numNodes spans + d) r 0 r
      (by simp [parentIter]) (rp_of_mem_rootsPos spans r hr)
      (mem_rootsPos_lt spans r hr) (by omega)
    have he : numNodes spans + (d + 1) = (numNodes spans + d) + 1 := by omega
    rw [he, ← hstep]
    exact ih

/-- Fuel stability of the whole builder. -/
theorem spanTreeFuel_stable (spans : List Span) (f : Nat)
    (hf : numNodes spans ≤ f) : spanTreeFuel spans f = spanTree spans := by
  unfold spanTree spanTreeFuel
  by_cases he : spans.isEmpty = true
  · simp [he]
  · simp only [he, if_false]
    apply List.map_congr_left
    intro r hrmem
    have hr : r ∈ rootsPos spans := (mem_sortByStart spans _ r).mp hrmem
    have hd := buildTree_ge spans r hr (f - numNodes spans)
    rw [(by omega : numNodes spans + (f - numNodes spans) = f)] at hd
    exact hd

/-- C1 (amended): a span whose parent chain revisits itself has a resolved
parent and is therefore attached as a child inside its cycle, never
classified as a root: it appears neither in the root sequence nor anywhere
in the built forest.  Building the tree still terminates: the attachment is
a single pass, and the recursive traversal only visits spans reachable from
roots, so unrolling fuel beyond the entry count (the builder uses exactly
that) changes nothing. -/
theorem spanTree_cycle_spec (spans : List Span) :
    (∀ i, onCycle spans i →
      i ∉ rootsPos spans ∧
      ∀ f r, r ∈ rootsPos spans → i ∉ treePositions spans f r) ∧
    (∀ f, numNodes spans ≤ f → spanTreeFuel spans f = spanTree spans) :=
  ⟨fun i h => ⟨onCycle_not_root spans i h,
      fun f r hr => onCycle_not_mem_tree spans i h f r hr⟩,
    fun f hf => spanTreeFuel_stable spans f hf⟩

/-- Witness for C1: the self-parenting span X (position 0 of `[selfX]`) is
on a parent cycle of length 1; it is not a root, and fuel 5 builds the same
(empty) forest as the builder's own fuel. -/
theorem spanTree_cycle_spec_witness :
    (0 ∉ rootsPos [selfX]) ∧ spanTreeFuel [selfX] 5 = spanTree [selfX] :=
  ⟨((spanTree_cycle_spec [selfX]).1 0 ⟨1, Nat.one_pos, by decide⟩).1,
    (spanTree_cycle_spec [selfX]).2 5 (by decide)⟩

/-- A single resolution step as an iteration. -/
theorem parentIter_one (spans : List Span) (i : Nat) :
    parentIter spans 1 i = resolvedParent spans i := by
  rcases h : resolvedParent spans i with _ | j <;> simp [parentIter, h]

/-- A position whose chain terminates at a root is not on a cycle. -/
theorem reaches_not_onCycle (spans : List Span) (i : Nat)
    (h : ∃ k r, parentIter spans k i = some r ∧
      resolvedParent spans r = none) : ¬ onCycle spans i := by
  obtain ⟨k, r, hc, hr⟩ := h
  intro hcyc
  have hsome := onCycle_isSome spans i hcyc (k + 1)
  have hnone : parentIter spans (k + 1) i = none := by
    rw [parentIter_add, hc]
    show parentIter spans 1 r = none
    rw [parentIter_one, hr]
  rw [hnone] at hsome
  cases hsome

/-- Children of one node with distinct positions span disjoint subtrees
whenever the node's chain terminates at a root. -/
theorem subtree_disjoint (spans : List Span) (p k r : Nat)
    (hpk : parentIter spans k p = some r)
    (hr : resolvedParent spans r = none)
    (c1 c2 : Nat) (h1 : resolvedParent spans c1 = some p)
    (h2 : resolvedParent spans c2 = some p) (hne : c1 ≠ c2) (f : Nat) :
    List.Disjoint (treePositions spans f c1) (treePositions spans f c2) := by
  intro x hx1 hx2
  obtain ⟨t1, ht1⟩ := chain_of_mem_treePositions spans f c1 x hx1
  obtain ⟨t2, ht2⟩ := chain_of_mem_treePositions spans f c2 x hx2
  have hp1 : parentIter spans (t1 + 1) x = some p := by
    rw [parentIter_add, ht1]
    show parentIter spans 1 c1 = some p
    rw [parentIter_one, h1]
  have hp2 : parentIter spans (t2 + 1) x = some p := by
    rw [parentIter_add, ht2]
    show parentIter spans 1 c2 = some p
    rw [parentIter_one, h2]
  have hne' : t1 ≠ t2 := by
    intro he
    rw [he, ht2] at ht1
    exact hne (Option.some.inj ht1).symm
  rcases Nat.lt_or_ge t1 t2 with hlt | hge
  · have hK : parentIter spans ((t2 + 1) + k) x = some r := by
      rw [parentIter_add, hp2]
      exact hpk
    exact chain_no_repeat spans x ((t2 + 1) + k) r hK hr (t1 + 1) (t2 + 1) p
      (by omega) (by omega) hp1 hp2
  · have hK : parentIter spans ((t1 + 1) + k) x = some r := by
      rw [parentIter_add, hp1]
      exact hpk
    exact chain_no_repeat spans x ((t1 + 1) + k) r hK hr (t2 + 1) (t1 + 1) p
      (by omega) (by omega) hp2 hp1

/-- Distinct roots span disjoint subtrees. -/
theorem root_subtree_disjoint (spans : List Span) (r1 r2 : Nat)
    (h1 : resolvedParent spans r1 = none)
    (h2 : resolvedParent spans r2 = none) (hne : r1 ≠ r2) (f : Nat) :
    List.Disjoint (treePositions spans f r1) (treePositions spans f r2) := by
  have key : ∀ ra rb : Nat, resolvedParent spans ra = none →
      ∀ t1 t2 x, t1 < t2 → parentIter spans t1 x = some ra →
      parentIter spans t2 x = some rb → False := by
    intro ra rb hra t1 t2 x hlt hta htb
    have hnone : parentIter spans t2 x = none := by
      have he : t2 = t1 + (t2 - t1) := by omega
      rw [he, parentIter_add, hta]
      show parentIter spans (t2 - t1) ra = none
      have he2 : t2 - t1 = 1 + (t2 - t1 - 1) := by omega
      rw [he2, parentIter_add, parentIter_one, hra]
    rw [hnone] at htb
    cases htb
  intro x hx1 hx2
  obtain ⟨t1, ht1⟩ := chain_of_mem_treePositions spans f r1 x hx1
  obtain ⟨t2, ht2⟩ := chain_of_mem_treePositions spans f r2 x hx2
  have hne' : t1 ≠ t2 := by
    intro he
    rw [he, ht2] at ht1
    exact hne (Option.some.inj ht1).symm
  rcases Nat.lt_or_ge t1 t2 with hlt | hge
  · exact key r1 r2 h1 t1 t2 x hlt ht1 ht2
  · exact key r2 r1 h2 t2 t1 x (by omega) ht2 ht1

/-- The pre-order position list of a subtree below a root-reaching position
has no duplicates. -/
theorem nodup_treePositions (spans : List Span) :
    ∀ f i, (∃ k r, parentIter spans k i = some r ∧
      resolvedParent spans r = none) →
    (treePositions spans f i).Nodup := by
  intro f
  induction f with
  | zero =>
    intro i _
    simp [treePositions]
  | succ f ih =>
    intro i hreach
    rw [treePositions, List.nodup_cons]
    constructor
    · intro hmem
      rcases List.mem_flatMap.mp hmem with ⟨c, hc, hic⟩
      have hrc : resolvedParent spans c = some i :=
        rp_of_mem_childrenPos spans i c ((mem_sortByStart spans _ c).mp hc)
      obtain ⟨t, ht⟩ := chain_of_mem_treePositions spans f c i hic
      have hcyc : onCycle spans i := by
        refine ⟨t + 1, by omega, ?_⟩
        rw [parentIter_add, ht]
        show parentIter spans 1 c = some i
        rw [parentIter_one, hrc]
      exact reaches_not_onCycle spans i hreach hcyc
    · rw [List.nodup_flatMap]
      obtain ⟨k, r, hck, hkr⟩ := hreach
      constructor
      · intro c hc
        have hrc : resolvedParent spans c = some i :=
          rp_of_mem_childrenPos spans i c ((mem_sortByStart spans _ c).mp hc)
        apply ih c
        refine ⟨k + 1, r, ?_, hkr⟩
        have h1k : parentIter spans (1 + k) c = some r := by
          rw [parentIter_add, parentIter_one, hrc]
          exact hck
        rwa [Nat.add_comm] at h1k
      · have hnd : (sortByStart spans (childrenPos spans i)).Nodup :=
          (List.perm_insertionSort _ _).nodup_iff.mpr
            (List.Nodup.filter _ (List.nodup_range _))
        refine List.Pairwise.imp_of_mem ?_ hnd
        intro c1 c2 hc1 hc2 hne
        exact subtree_disjoint spans i k r hck hkr c1 c2
          (rp_of_mem_childrenPos spans i c1 ((mem_sortByStart spans _ c1).mp hc1))
          (rp_of_mem_childrenPos spans i c2 ((mem_sortByStart spans _ c2).mp hc2))
          hne f

/-- The pre-order position list of the whole forest has no duplicates. -/
theorem nodup_forestPositions (spans : List Span) :
    (forestPositions spans).Nodup := by
  unfold forestPositions
  by_cases he : spans.isEmpty = true
  · simp [he]
  · rw [if_neg he]
    rw [List.nodup_flatMap]
    constructor
    · intro r hr
      exact nodup_treePositions spans (numNodes spans) r
        ⟨0, r, by simp [parentIter],
          rp_of_mem_rootsPos spans r ((mem_sortByStart spans _ r).mp hr)⟩
    · have hnd : (sortByStart spans (rootsPos spans)).Nodup :=
        (List.perm_insertionSort _ _).nodup_iff.mpr
          (List.Nodup.filter _ (List.nodup_range _))
      refine List.Pairwise.imp_of_mem ?_ hnd
      intro r1 r2 hr1 hr2 hne
      exact root_subtree_disjoint spans r1 r2
        (rp_of_mem_rootsPos spans r1 ((mem_sortByStart spans _ r1).mp hr1))
        (rp_of_mem_rootsPos spans r2 ((mem_sortByStart spans _ r2).mp hr2))
        hne (numNodes spans)

/-- Every position of a subtree grown from a valid position is valid. -/
theorem treePositions_lt (spans : List Span) :
    ∀ f i, i < numNodes spans → ∀ j, j ∈ treePositions spans f i →
      j < numNodes spans := by
  intro f
  induction f with
  | zero =>
    intro i hi j hj
    simp [treePositions] at hj
    omega
  | succ f ih =>
    intro i hi j hj
    rw [treePositions] at hj
    rcases List.mem_cons.mp hj with hji | hmem
    · omega
    · rcases List.mem_flatMap.mp hmem with ⟨c, hc, hjc⟩
      exact ih c (mem_childrenPos_lt spans i c
        ((mem_sortByStart spans _ c).mp hc)) j hjc

/-- The forest never holds more nodes than there are map entries. -/
theorem forestPositions_length_le (spans : List Span) :
    (forestPositions spans).length ≤ numNodes spans := by
  have hsub : forestPositions spans ⊆ List.range (numNodes spans) := by
    intro j hj
    rw [List.mem_range]
    unfold forestPositions at hj
    by_cases he : spans.isEmpty = true
    · simp [he] at hj
    · rw [if_neg he] at hj
      rcases List.mem_flatMap.mp hj with ⟨r, hr, hjr⟩
      exact treePositions_lt spans (numNodes spans) r
        (mem_rootsPos_lt spans r ((mem_sortByStart spans _ r).mp hr)) j hjr
  have := ((nodup_forestPositions spans).subperm hsub).length_le
  simpa using this

/-- Forest flattening is the concatenation of the per-tree flattenings. -/
theorem flattenForest_eq_flatMap (c : List String) (F : List TimelineTree) :
    flattenForest c F = F.flatMap (flattenTree c) := by
  induction F with
  | nil => rfl
  | cons t ts ih =>
    rw [flattenForest, ih]
    rfl

/-- With nothing collapsed, flattening a built subtree lists exactly its
positions' node data in pre-order. -/
theorem flattenTree_buildTree (spans : List Span) :
    ∀ f i, flattenTree [] (buildTree spans f i) =
      (treePositions spans f i).map (nodeData spans) := by
  intro f
  induction f with
  | zero =>
    intro i
    simp [buildTree, flattenTree, flattenForest, treePositions]
  | succ f ih =>
    intro i
    show (nodeData spans i) ::
        (if (nodeData spans i).span.span_id ∈ ([] : List String) then []
         else flattenForest []
           ((sortByStart spans (childrenPos spans i)).map (buildTree spans f))) =
      ((i :: (sortByStart spans (childrenPos spans i)).flatMap
        (treePositions spans f)).map (nodeData spans))
    rw [if_neg (List.not_mem_nil _)]
    rw [flattenForest_eq_flatMap, List.flatMap_map, List.map_cons,
      List.map_flatMap]
    congr 1
    exact List.flatMap_congr (fun c _ => ih c)

/-- The fully expanded flattened sequence is the node data of the forest
positions, in order. -/
theorem flattenedSpans_spanTree (spans : List Span) :
    flattenedSpans [] (spanTree spans) =
      (forestPositions spans).map (nodeData spans) := by
  unfold flattenedSpans spanTree spanTreeFuel forestPositions
  by_cases he : spans.isEmpty = true
  · simp [he, flattenForest]
  · rw [if_neg he, if_neg he]
    rw [flattenForest_eq_flatMap, List.flatMap_map, List.map_flatMap]
    exact List.flatMap_congr (fun r _ => flattenTree_buildTree spans _ r)

/-! ## Map-entry lemmas for C10 -/

/-- `Map.set` keeps the key list duplicate-free. -/
theorem jsMapSet_keys_nodup {α : Type} (m : List (String × α)) (k : String)
    (v : α) (h : (m.map Prod.fst).Nodup) :
    ((jsMapSet m k v).map Prod.fst).Nodup := by
  unfold jsMapSet
  by_cases ha : m.any (fun e => e.1 == k) = true
  · rw [if_pos ha]
    have hkeys : (m.map (fun e => if e.1 == k then (k, v) else e)).map Prod.fst =
        m.map Prod.fst := by
      rw [List.map_map]
      apply List.map_congr_left
      intro e _
      simp only [Function.comp]
      by_cases hek : e.1 == k
      · rw [if_pos hek]
        exact (eq_of_beq hek).symm
      · rw [if_neg hek]
    rw [hkeys]
    exact h
  · rw [if_neg ha]
    rw [List.map_append]
    rw [List.nodup_append]
    refine ⟨h, List.nodup_singleton k, ?_⟩
    intro x hx hk
    simp only [List.map_cons, List.map_nil, List.mem_singleton] at hk
    subst hk
    rcases List.mem_map.mp hx with ⟨e, he, hfst⟩
    rw [List.any_eq_true] at ha
    exact ha ⟨e, he, by simp [hfst]⟩

/-- Looking up the key just set returns the value just written. -/
theorem jsMapGet_set_self {α : Type} (m : List (String × α)) (k : String)
    (v : α) : jsMapGet (jsMapSet m k v) k = some v := by
  unfold jsMapGet jsMapSet
  by_cases ha : m.any (fun e => e.1 == k) = true
  · rw [if_pos ha]
    have hfind : (m.map (fun e => if e.1 == k then (k, v) else e)).find?
        (fun e => e.1 == k) = some (k, v) := by
      induction m with
      | nil => cases ha
      | cons e rest ih =>
        by_cases hek : (e.1 == k) = true
        · rw [List.map_cons, if_pos hek]
          exact List.find?_cons_of_pos _ (by simp)
        · have ha' : rest.any (fun e => e.1 == k) = true := by
            rw [List.any_cons] at ha
            simpa [hek] using ha
          rw [List.map_cons, if_neg hek,
            List.find?_cons_of_neg _ (by simpa using hek)]
          exact ih ha'
    rw [hfind]
  · rw [if_neg ha]
    have hnone : m.find? (fun e => e.1 == k) = none := by
      rw [List.find?_eq_none]
      intro e he
      rw [List.any_eq_true] at ha
      exact fun hp => ha ⟨e, he, hp⟩
    rw [List.find?_append, hnone]
    rw [List.find?_cons_of_pos _ (by simp)]
    rfl

/-- Looking up any other key is unaffected by a `Map.set`. -/
theorem jsMapGet_set_ne {α : Type} (m : List (String × α)) (k k' : String)
    (v : α) (hne : k' ≠ k) :
    jsMapGet (jsMapSet m k v) k' = jsMapGet m k' := by
  have hkk' : (k == k') = false :=
    beq_eq_false_iff_ne.mpr (fun h => hne h.symm)
  unfold jsMapGet jsMapSet
  by_cases ha : m.any (fun e => e.1 == k) = true
  · rw [if_pos ha]
    have hfind : (m.map (fun e => if e.1 == k then (k, v) else e)).find?
        (fun e => e.1 == k') = m.find? (fun e => e.1 == k') := by
      clear ha
      induction m with
      | nil => rfl
      | cons e rest ih =>
        by_cases hek : (e.1 == k) = true
        · have heq : e.1 = k := eq_of_beq hek
          rw [List.map_cons, if_pos hek,
            List.find?_cons_of_neg _ (by simp [hkk']),
            List.find?_cons_of_neg _ (by simp [heq, hkk'])]
          exact ih
        · rw [List.map_cons, if_neg hek]
          by_cases hpe : (e.1 == k') = true
          · rw [@List.find?_cons_of_pos _ (fun x => x.1 == k') e _ hpe,
              @List.find?_cons_of_pos _ (fun x => x.1 == k') e _ hpe]
          · rw [@List.find?_cons_of_neg _ (fun x => x.1 == k') e _ hpe,
              @List.find?_cons_of_neg _ (fun x => x.1 == k') e _ hpe]
            exact ih
    rw [hfind]
  · rw [if_neg ha]
    rw [List.find?_append]
    rw [List.find?_cons_of_neg _ (by simp [hkk'])]
    rcases hfm : m.find? (fun e => e.1 == k') with _ | e <;> simp [hfm]

/-- Keys remain duplicate-free through the whole build of the span map,
for any value function. -/
theorem foldl_mapset_keys_nodup {α : Type} (g : Span → α) :
    ∀ (l : List Span) (m0 : List (String × α)),
      (m0.map Prod.fst).Nodup →
      ((l.foldl (fun m s => jsMapSet m s.span_id (g s)) m0).map Prod.fst).Nodup := by
  intro l
  induction l with
  | nil =>
    intro m0 h
    exact h
  | cons s rest ih =>
    intro m0 h
    exact ih _ (jsMapSet_keys_nodup _ _ _ h)

/-- The key list of the span map is duplicate-free: at most one node per
span_id. -/
theorem spanEntries_keys_nodup (spans : List Span) :
    ((spanEntries spans).map Prod.fst).Nodup := by
  unfold spanEntries
  exact foldl_mapset_keys_nodup (toTimeline spans) spans [] (by simp)

/-- Folding `Map.set` over the input realises last-write-wins: the final
lookup of any id is the value of its last occurrence. -/
theorem foldl_mapset_get {α : Type} (g : Span → α) :
    ∀ (l : List Span) (m0 : List (String × α)) (id : String),
      jsMapGet (l.foldl (fun m s => jsMapSet m s.span_id (g s)) m0) id =
        (match (l.filter (fun s => s.span_id == id)).getLast? with
         | some s => some (g s)
         | none => jsMapGet m0 id) := by
  intro l
  induction l using List.reverseRecOn with
  | nil =>
    intro m0 id
    rfl
  | append_singleton l s ih =>
    intro m0 id
    rw [List.foldl_append, List.foldl_cons, List.foldl_nil]
    by_cases hid : s.span_id = id
    · rw [List.filter_append]
      rw [show List.filter (fun s => s.span_id == id) [s] = [s] by simp [hid]]
      rw [List.getLast?_concat]
      rw [← hid]
      exact jsMapGet_set_self _ _ _
    · rw [List.filter_append]
      rw [show List.filter (fun s => s.span_id == id) [s] = [] by simp [hid]]
      rw [List.append_nil]
      rw [jsMapGet_set_ne _ _ _ _ (fun h => hid h.symm)]
      exact ih m0 id

/-- When the key is already present, `Map.set` leaves the key list
unchanged. -/
theorem jsMapSet_keys_of_any {α : Type} (m : List (String × α)) (k : String)
    (v : α) (ha : m.any (fun e => e.1 == k) = true) :
    (jsMapSet m k v).map Prod.fst = m.map Prod.fst := by
  unfold jsMapSet
  rw [if_pos ha]
  rw [List.map_map]
  apply List.map_congr_left
  intro e _
  simp only [Function.comp]
  by_cases hek : (e.1 == k) = true
  · rw [if_pos hek]
    exact (eq_of_beq hek).symm
  · rw [if_neg hek]

/-- `Map.set` inserts its key into the key set. -/
theorem jsMapSet_keys_toFinset {α : Type} (m : List (String × α)) (k : String)
    (v : α) : ((jsMapSet m k v).map Prod.fst).toFinset =
      insert k (m.map Prod.fst).toFinset := by
  by_cases ha : m.any (fun e => e.1 == k) = true
  · rw [jsMapSet_keys_of_any m k v ha]
    have hk : k ∈ (m.map Prod.fst).toFinset := by
      rw [List.any_eq_true] at ha
      obtain ⟨e, he, hp⟩ := ha
      rw [List.mem_toFinset]
      exact List.mem_map.mpr ⟨e, he, eq_of_beq hp⟩
    rw [Finset.insert_eq_self.mpr hk]
  · unfold jsMapSet
    rw [if_neg ha]
    rw [List.map_append, List.toFinset_append]
    ext x
    simp [or_comm]

/-- The key set accumulated by the build is the set of input span ids. -/
theorem foldl_mapset_keys_toFinset {α : Type} (g : Span → α) :
    ∀ (l : List Span) (m0 : List (String × α)),
      ((l.foldl (fun m s => jsMapSet m s.span_id (g s)) m0).map Prod.fst).toFinset =
        (m0.map Prod.fst).toFinset ∪ (l.map (fun s => s.span_id)).toFinset := by
  intro l
  induction l using List.reverseRecOn with
  | nil =>
    intro m0
    simp
  | append_singleton l s ih =>
    intro m0
    rw [List.foldl_append, List.foldl_cons, List.foldl_nil]
    rw [jsMapSet_keys_toFinset, ih]
    rw [List.map_append, List.toFinset_append]
    ext x
    simp [or_comm, or_assoc, or_left_comm]

/-- The final lookup of any id in the span map is the timeline copy of the
id's last occurrence in the input. -/
theorem spanEntries_get (spans : List Span) (id : String) :
    jsMapGet (spanEntries spans) id =
      (match (spans.filter (fun s => s.span_id == id)).getLast? with
       | some s => some (toTimeline spans s)
       | none => none) := by
  unfold spanEntries
  rw [foldl_mapset_get (toTimeline spans) spans [] id]
  rcases (spans.filter (fun s => s.span_id == id)).getLast? with _ | s <;> rfl

/-- The number of map entries is the number of distinct input span ids. -/
theorem numNodes_eq_distinct (spans : List Span) :
    numNodes spans = (spans.map (fun s => s.span_id)).toFinset.card := by
  have hnodup := spanEntries_keys_nodup spans
  have hcard := List.toFinset_card_of_nodup hnodup
  have hset : ((spanEntries spans).map Prod.fst).toFinset =
      (spans.map (fun s => s.span_id)).toFinset := by
    unfold spanEntries
    rw [foldl_mapset_keys_toFinset (toTimeline spans) spans []]
    simp
  have hlen : numNodes spans = ((spanEntries spans).map Prod.fst).length := by
    unfold numNodes tlNodes
    simp
  rw [hlen, ← hcard, hset]

/-- C10: the span map is built last-write-wins over a duplicated span_id:
the key list has no duplicates (at most one node per id), the entry
retained for an id is the timeline copy of the id's last occurrence in
input order (so earlier occurrences contribute no node), the entry count is
the number of distinct span ids, and the built forest never contains more
nodes than that count. -/
theorem spanMap_lastWriteWins_spec (spans : List Span) :
    ((spanEntries spans).map Prod.fst).Nodup ∧
    (∀ id, jsMapGet (spanEntries spans) id =
      (match (spans.filter (fun s => s.span_id == id)).getLast? with
       | some s => some (toTimeline spans s)
       | none => none)) ∧
    numNodes spans = (spans.map (fun s => s.span_id)).toFinset.card ∧
    (flattenedSpans [] (spanTree spans)).length ≤ numNodes spans :=
  ⟨spanEntries_keys_nodup spans,
    fun id => spanEntries_get spans id,
    numNodes_eq_distinct spans,
    by
      rw [flattenedSpans_spanTree, List.length_map]
      exact forestPositions_length_le spans⟩

/-! ## C6: flattening, collapse and toggle -/

/-- Every subtree holds at least its own node. -/
theorem sizeT_pos (t : TimelineTree) : 1 ≤ sizeT t := by
  cases t with
  | node d ch =>
    rw [sizeT]
    omega

/-- Strong induction over forests: prove a forest property from its value on
the empty forest and on a first tree's children and the remaining trees. -/
theorem forest_induction (P : List TimelineTree → Prop)
    (hnil : P [])
    (hcons : ∀ d ch ts, P ch → P ts → P (TimelineTree.node d ch :: ts)) :
    ∀ F, P F := by
  have key : ∀ n F, sizeF F ≤ n → P F := by
    intro n
    induction n with
    | zero =>
      intro F hF
      cases F with
      | nil => exact hnil
      | cons t ts =>
        exfalso
        have h1 := sizeT_pos t
        rw [sizeF] at hF
        omega
    | succ n ih =>
      intro F hF
      cases F with
      | nil => exact hnil
      | cons t ts =>
        cases t with
        | node d ch =>
          rw [sizeF, sizeT] at hF
          exact hcons d ch ts (ih ch (by omega)) (ih ts (by omega))
  intro F
  exact key (sizeF F) F le_rfl

/-- Flattening depends on the collapsed set only through membership. -/
theorem flattenForest_congr (c c' : List String)
    (h : ∀ y, y ∈ c ↔ y ∈ c') :
    ∀ F, flattenForest c F = flattenForest c' F := by
  refine forest_induction _ rfl ?_
  intro d ch ts ihch ihts
  rw [flattenForest, flattenForest, flattenTree, flattenTree]
  by_cases hm : d.span.span_id ∈ c
  · rw [if_pos hm, if_pos ((h _).mp hm), ihts]
  · rw [if_neg hm, if_neg (fun hc' => hm ((h _).mpr hc')), ihch, ihts]

/-- Toggling the same id twice restores the collapsed set up to
membership. -/
theorem toggle_toggle_mem (c : List String) (x : String) (hc : c.Nodup)
    (y : String) :
    (y ∈ toggleCollapse (toggleCollapse c x) x ↔ y ∈ c) := by
  unfold toggleCollapse
  by_cases hx : x ∈ c
  · rw [if_pos hx]
    have hxe : x ∉ c.erase x := by
      intro hmem
      exact absurd (hc.mem_erase_iff.mp hmem).1 (by simp)
    rw [if_neg hxe]
    by_cases hyx : y = x
    · subst hyx
      simp [hx]
    · simp only [List.mem_cons]
      rw [List.mem_erase_of_ne hyx]
      constructor
      · intro hor
        rcases hor with hor | hor
        · exact absurd hor hyx
        · exact hor
      · intro hy
        exact Or.inr hy
  · rw [if_neg hx, if_pos (List.mem_cons_self x c), List.erase_cons_head]

/-- Annotated-traversal entries carry every outer ancestor. -/
theorem mem_annForest_anc :
    ∀ F (anc : List String) (p : TimelineSpan × List String),
      p ∈ annForest anc F → ∀ y ∈ anc, y ∈ p.2 := by
  refine forest_induction _ ?_ ?_
  · intro anc p hp
    rw [annForest] at hp
    cases hp
  · intro d ch ts ihch ihts anc p hp y hy
    rw [annForest, annTree] at hp
    rcases List.mem_append.mp hp with hp1 | hp2
    · rcases List.mem_cons.mp hp1 with hpe | hpm
      · subst hpe
        exact hy
      · exact ihch _ p hpm y (List.mem_cons_of_mem _ hy)
    · exact ihts _ p hp2 y hy

/-- C6 part (a) generalised: under the invariant that no outer ancestor is
collapsed, flattening equals the ancestor-annotated pre-order filtered to
entries all of whose proper ancestors are non-collapsed. -/
theorem flattenForest_eq_annFilter (c : List String) :
    ∀ F (anc : List String), (∀ y ∈ anc, y ∉ c) →
      flattenForest c F =
        ((annForest anc F).filter
          (fun p => p.2.all (fun y => decide (y ∉ c)))).map Prod.fst := by
  refine forest_induction _ ?_ ?_
  · intro anc _
    rfl
  · intro d ch ts ihch ihts anc hanc
    rw [flattenForest, flattenTree, annForest, annTree]
    rw [List.filter_append, List.filter_cons]
    have hpass : ((d, anc).2.all (fun y => decide (y ∉ c))) = true := by
      rw [List.all_eq_true]
      intro y hy
      exact decide_eq_true (hanc y hy)
    rw [if_pos hpass, List.map_append, List.map_cons]
    by_cases hm : d.span.span_id ∈ c
    · rw [if_pos hm]
      have hdrop : (annForest (d.span.span_id :: anc) ch).filter
          (fun p => p.2.all (fun y => decide (y ∉ c))) = [] := by
        rw [List.filter_eq_nil_iff]
        intro p hp
        intro hall
        rw [List.all_eq_true] at hall
        have := hall d.span.span_id
          (mem_annForest_anc ch _ p hp d.span.span_id (List.mem_cons_self _ _))
        rw [decide_eq_true_eq] at this
        exact this hm
      rw [hdrop, List.map_nil]
      rw [ihts anc hanc]
    · rw [if_neg hm]
      have hanc' : ∀ y ∈ d.span.span_id :: anc, y ∉ c := by
        intro y hy
        rcases List.mem_cons.mp hy with hye | hym
        · subst hye
          exact hm
        · exact hanc y hym
      rw [ihch (d.span.span_id :: anc) hanc', ihts anc hanc]

/-- Flattened nodes come from the forest's id set. -/
theorem mem_flattenForest_ids :
    ∀ F (c : List String) (nd : TimelineSpan), nd ∈ flattenForest c F →
      nd.span.span_id ∈ idsForest F := by
  refine forest_induction _ ?_ ?_
  · intro c nd h
    rw [flattenForest] at h
    cases h
  · intro d ch ts ihch ihts c nd h
    rw [flattenForest, flattenTree] at h
    rw [idsForest, idsTree]
    rcases List.mem_append.mp h with h1 | h2
    · rcases List.mem_cons.mp h1 with he | hm
      · subst he
        simp
      · by_cases hcol : d.span.span_id ∈ c
        · rw [if_pos hcol] at hm
          cases hm
        · rw [if_neg hcol] at hm
          have := ihch c nd hm
          simp [this]
    · have := ihts c nd h2
      simp [this]

/-- Descendant ids come from the forest's id set. -/
theorem descForest_subset_ids (x : String) :
    ∀ F (y : String), y ∈ descForest x F → y ∈ idsForest F := by
  refine forest_induction _ ?_ ?_
  · intro y h
    rw [descForest] at h
    cases h
  · intro d ch ts ihch ihts y h
    rw [descForest, descTree] at h
    rw [idsForest, idsTree]
    rcases List.mem_append.mp h with h1 | h2
    · by_cases hdx : d.span.span_id = x
      · rw [if_pos hdx] at h1
        simp [h1]
      · rw [if_neg hdx] at h1
        have := ihch y h1
        simp [this]
    · have := ihts y h2
      simp [this]

/-- An id absent from a forest has no descendants there. -/
theorem descForest_of_not_mem (x : String) :
    ∀ F, x ∉ idsForest F → descForest x F = [] := by
  refine forest_induction _ ?_ ?_
  · intro _
    rfl
  · intro d ch ts ihch ihts hx
    rw [idsForest, idsTree] at hx
    rw [descForest, descTree]
    have hdx : d.span.span_id ≠ x := by
      intro he
      exact hx (by simp [he])
    rw [if_neg hdx]
    rw [ihch (fun hm => hx (by simp [hm])), ihts (fun hm => hx (by simp [hm]))]
    rfl

/-- Under duplicate-free ids, no node is its own descendant. -/
theorem not_mem_descForest_self (x : String) :
    ∀ F, (idsForest F).Nodup → x ∉ descForest x F := by
  refine forest_induction _ ?_ ?_
  · intro _ h
    rw [descForest] at h
    cases h
  · intro d ch ts ihch ihts hnd hx
    rw [idsForest, idsTree] at hnd
    have hnd' := hnd
    rw [List.cons_append, List.nodup_cons, List.nodup_append] at hnd'
    obtain ⟨hdid, hndch, hndts, hdisj⟩ := hnd'
    rw [descForest, descTree] at hx
    rcases List.mem_append.mp hx with h1 | h2
    · by_cases hdx : d.span.span_id = x
      · rw [if_pos hdx] at h1
        exact hdid (by rw [hdx]; simp [h1])
      · rw [if_neg hdx] at h1
        exact ihch hndch h1
    · have hxts := descForest_subset_ids x ts x h2
      by_cases hdx : d.span.span_id = x
      · exact hdid (by rw [hdx]; simp [hxts])
      · have hxF : x ∈ descForest x ts := h2
        exact ihts hndts hxF

/-- Collapsing an id that does not occur in a forest changes nothing. -/
theorem flattenForest_skip (x : String) (c : List String) :
    ∀ F, x ∉ idsForest F →
      flattenForest (x :: c) F = flattenForest c F := by
  refine forest_induction _ ?_ ?_
  · intro _
    rfl
  · intro d ch ts ihch ihts hx
    rw [idsForest, idsTree] at hx
    have hdx : d.span.span_id ≠ x := fun he => hx (by simp [he])
    have hxch : x ∉ idsForest ch := fun hm => hx (by simp [hm])
    have hxts : x ∉ idsForest ts := fun hm => hx (by simp [hm])
    rw [flattenForest, flattenTree, flattenForest, flattenTree]
    have hmem : (d.span.span_id ∈ x :: c) ↔ (d.span.span_id ∈ c) := by
      simp [List.mem_cons, hdx]
    by_cases hm : d.span.span_id ∈ c
    · rw [if_pos hm, if_pos (hmem.mpr hm), ihts hxts]
    · rw [if_neg hm, if_neg (fun h => hm (hmem.mp h)), ihch hxch, ihts hxts]

/-- Tree-level version of `mem_flattenForest_ids`. -/
theorem mem_flattenTree_ids (t : TimelineTree) (c : List String)
    (nd : TimelineSpan) (h : nd ∈ flattenTree c t) :
    nd.span.span_id ∈ idsTree t := by
  have h2 : nd ∈ flattenForest c [t] := by
    rw [flattenForest, flattenForest, List.append_nil]
    exact h
  have h3 := mem_flattenForest_ids [t] c nd h2
  rw [idsForest, idsForest, List.append_nil] at h3
  exact h3

/-- C6 part (b): collapsing a present, not-yet-collapsed id removes from the
flattened sequence exactly the proper descendants of that node — never the
node itself. -/
theorem flattenForest_collapse_desc (x : String) (c : List String)
    (hxc : x ∉ c) :
    ∀ F, (idsForest F).Nodup → x ∈ idsForest F →
      flattenForest (x :: c) F =
        (flattenForest c F).filter
          (fun nd => decide (nd.span.span_id ∉ descForest x F)) := by
  refine forest_induction _ ?_ ?_
  · intro _ hx
    rw [idsForest] at hx
    cases hx
  · intro d ch ts ihch ihts hnd hx
    rw [idsForest, idsTree, List.cons_append] at hnd hx
    rw [List.nodup_cons, List.nodup_append] at hnd
    obtain ⟨hdmem, hndch, hndts, hdisj⟩ := hnd
    have hdch : d.span.span_id ∉ idsForest ch :=
      fun h => hdmem (List.mem_append_left _ h)
    have hdts : d.span.span_id ∉ idsForest ts :=
      fun h => hdmem (List.mem_append_right _ h)
    rcases List.mem_cons.mp hx with hxd | hxm
    · -- the collapsed id is this node's own id
      subst hxd
      have hxch := hdch
      have hxts := hdts
      have hL : flattenForest (d.span.span_id :: c) (TimelineTree.node d ch :: ts) =
          d :: flattenForest c ts := by
        rw [flattenForest, flattenTree, if_pos (List.mem_cons_self _ _),
          flattenForest_skip _ c ts hxts]
        rfl
      have hR : flattenForest c (TimelineTree.node d ch :: ts) =
          d :: (flattenForest c ch ++ flattenForest c ts) := by
        rw [flattenForest, flattenTree, if_neg hxc]
        rfl
      have hD : descForest d.span.span_id (TimelineTree.node d ch :: ts) =
          idsForest ch := by
        rw [descForest, descTree, if_pos rfl,
          descForest_of_not_mem _ ts hxts, List.append_nil]
      rw [hL, hR, hD, List.filter_cons,
        if_pos (decide_eq_true hdch), List.filter_append]
      have hch0 : (flattenForest c ch).filter
          (fun nd => decide (nd.span.span_id ∉ idsForest ch)) = [] := by
        rw [List.filter_eq_nil_iff]
        intro nd hnd2 hp
        rw [decide_eq_true_eq] at hp
        exact hp (mem_flattenForest_ids ch c nd hnd2)
      have hts1 : (flattenForest c ts).filter
          (fun nd => decide (nd.span.span_id ∉ idsForest ch)) =
          flattenForest c ts := by
        rw [List.filter_eq_self]
        intro nd hnd2
        rw [decide_eq_true_eq]
        intro hin
        exact hdisj hin (mem_flattenForest_ids ts c nd hnd2)
      rw [hch0, hts1, List.nil_append]
    · -- the collapsed id sits strictly below: in the children or later trees
      have hxd : x ≠ d.span.span_id := by
        intro he
        exact hdmem (he ▸ hxm)
      rcases List.mem_append.mp hxm with hxch | hxts
      · -- inside this node's children
        have hxts : x ∉ idsForest ts := fun h => hdisj hxch h
        have hD : descForest x (TimelineTree.node d ch :: ts) =
            descForest x ch := by
          rw [descForest, descTree, if_neg (fun he => hxd he.symm),
            descForest_of_not_mem x ts hxts, List.append_nil]
        have hdkeep : d.span.span_id ∉ descForest x ch :=
          fun h => hdch (descForest_subset_ids x ch _ h)
        have hts1 : (flattenForest c ts).filter
            (fun nd => decide (nd.span.span_id ∉ descForest x ch)) =
            flattenForest c ts := by
          rw [List.filter_eq_self]
          intro nd hnd2
          rw [decide_eq_true_eq]
          intro hin
          exact hdisj (descForest_subset_ids x ch _ hin)
            (mem_flattenForest_ids ts c nd hnd2)
        by_cases hdc : d.span.span_id ∈ c
        · have hL : flattenForest (x :: c) (TimelineTree.node d ch :: ts) =
              d :: flattenForest c ts := by
            rw [flattenForest, flattenTree,
              if_pos (List.mem_cons_of_mem x hdc),
              flattenForest_skip x c ts hxts]
            rfl
          have hR : flattenForest c (TimelineTree.node d ch :: ts) =
              d :: flattenForest c ts := by
            rw [flattenForest, flattenTree, if_pos hdc]
            rfl
          rw [hL, hR, hD, List.filter_cons,
            if_pos (decide_eq_true hdkeep), hts1]
        · have hnotin : d.span.span_id ∉ x :: c := by
            intro hin
            rcases List.mem_cons.mp hin with he | hin2
            · exact hxd he.symm
            · exact hdc hin2
          have hL : flattenForest (x :: c) (TimelineTree.node d ch :: ts) =
              d :: (flattenForest (x :: c) ch ++ flattenForest c ts) := by
            rw [flattenForest, flattenTree, if_neg hnotin,
              flattenForest_skip x c ts hxts]
            rfl
          have hR : flattenForest c (TimelineTree.node d ch :: ts) =
              d :: (flattenForest c ch ++ flattenForest c ts) := by
            rw [flattenForest, flattenTree, if_neg hdc]
            rfl
          rw [hL, hR, hD, ihch hndch hxch, List.filter_cons,
            if_pos (decide_eq_true hdkeep), List.filter_append, hts1]
      · -- inside a later tree
        have hxch : x ∉ idsForest ch := fun h => hdisj h hxts
        have hD : descForest x (TimelineTree.node d ch :: ts) =
            descForest x ts := by
          rw [descForest, descTree, if_neg (fun he => hxd he.symm),
            descForest_of_not_mem x ch hxch, List.nil_append]
        have hhead : flattenTree (x :: c) (TimelineTree.node d ch) =
            flattenTree c (TimelineTree.node d ch) := by
          rw [flattenTree, flattenTree]
          by_cases hdc : d.span.span_id ∈ c
          · rw [if_pos hdc, if_pos (List.mem_cons_of_mem x hdc)]
          · have hnotin : d.span.span_id ∉ x :: c := by
              intro hin
              rcases List.mem_cons.mp hin with he | hin2
              · exact hxd he.symm
              · exact hdc hin2
            rw [if_neg hdc, if_neg hnotin, flattenForest_skip x c ch hxch]
        have hhead1 : (flattenTree c (TimelineTree.node d ch)).filter
            (fun nd => decide (nd.span.span_id ∉ descForest x ts)) =
            flattenTree c (TimelineTree.node d ch) := by
          rw [List.filter_eq_self]
          intro nd hnd2
          rw [decide_eq_true_eq]
          intro hin
          have hid := mem_flattenTree_ids _ c nd hnd2
          rw [idsTree] at hid
          have hints := descForest_subset_ids x ts _ hin
          rcases List.mem_cons.mp hid with he | hm
          · exact hdts (he ▸ hints)
          · exact hdisj hm hints
        rw [flattenForest, flattenForest, hhead, ihts hndts hxts, hD,
          List.filter_append, hhead1]

/-- C6: for every span forest and collapsed set, (a) the flattened sequence
is the pre-order traversal restricted to exactly the nodes all of whose
proper ancestors are non-collapsed; (b) under duplicate-free ids, toggling
a visible uncollapsed id removes exactly that node's proper descendants
from the flattened sequence — never the node itself, which is not its own
descendant; and (c) toggling the same id twice restores the original
flattened sequence exactly. -/
theorem flattenedSpans_collapse_spec (F : List TimelineTree)
    (c : List String) (x : String) :
    (flattenedSpans c F =
      ((annForest [] F).filter
        (fun p => p.2.all (fun y => decide (y ∉ c)))).map Prod.fst) ∧
    ((idsForest F).Nodup → x ∈ idsForest F → x ∉ c →
      flattenedSpans (toggleCollapse c x) F =
        (flattenedSpans c F).filter
          (fun nd => decide (nd.span.span_id ∉ descForest x F)) ∧
      x ∉ descForest x F) ∧
    (c.Nodup →
      flattenedSpans (toggleCollapse (toggleCollapse c x) x) F =
        flattenedSpans c F) := by
  refine ⟨?_, ?_, ?_⟩
  · exact flattenForest_eq_annFilter c F [] (by intro y hy; cases hy)
  · intro hnd hxF hxc
    constructor
    · have ht : toggleCollapse c x = x :: c := by
        unfold toggleCollapse
        rw [if_neg hxc]
      rw [ht]
      exact flattenForest_collapse_desc x c hxc F hnd hxF
    · exact not_mem_descForest_self x F hnd
  · intro hc
    exact flattenForest_congr _ c (toggle_toggle_mem c x hc) F

/-- Witness for C6: in the forest built from scenario A, collapsing the root
R removes exactly its two children from the flattened sequence (keeping R),
and toggling R twice restores the original sequence. -/
theorem flattenedSpans_collapse_spec_witness :
    flattenedSpans (toggleCollapse [] "R") (spanTree scenarioA) =
      (flattenedSpans [] (spanTree scenarioA)).filter
        (fun nd => decide (nd.span.span_id ∉
          descForest "R" (spanTree scenarioA))) ∧
    flattenedSpans (toggleCollapse (toggleCollapse [] "R") "R")
        (spanTree scenarioA) =
      flattenedSpans [] (spanTree scenarioA) :=
  ⟨((flattenedSpans_collapse_spec (spanTree scenarioA) [] "R").2.1
      (by decide) (by decide) (by decide)).1,
    (flattenedSpans_collapse_spec (spanTree scenarioA) [] "R").2.2 (by decide)⟩

/-! ## C9: the builder never mutates its input (explicit-heap frame) -/

/-- Setting a cell at or beyond `n` leaves the first `n` cells untouched. -/
theorem take_set_of_le {α : Type} :
    ∀ (l : List α) (i n : Nat) (v : α), n ≤ i →
      (l.set i v).take n = l.take n := by
  intro l
  induction l with
  | nil =>
    intro i n v _
    rfl
  | cons a as ih =>
    intro i n v h
    cases i with
    | zero =>
      have hn : n = 0 := by omega
      subst hn
      rfl
    | succ i =>
      cases n with
      | zero => rfl
      | succ n =>
        rw [List.set_cons_succ, List.take_cons (by omega : 0 < n + 1),
          List.take_cons (by omega : 0 < n + 1)]
        congr 1
        exact ih i (n + 1 - 1) v (by omega)

/-- Updating a cell at or beyond `n` leaves the first `n` cells untouched. -/
theorem take_heapUpd (h : List HCell) (a : Nat) (f : HCell → HCell)
    (n : Nat) (han : n ≤ a) : (heapUpd h a f).take n = h.take n := by
  unfold heapUpd
  rcases hg : h.get? a with _ | cell
  · rfl
  · exact take_set_of_le h a n (f cell) han

/-- Values set into a JS map satisfy any property the old values and the new
value satisfy. -/
theorem mem_jsMapSet_values {α : Type} (m : List (String × α)) (k : String)
    (v : α) (Q : α → Prop) (hm : ∀ e ∈ m, Q e.2) (hv : Q v) :
    ∀ e ∈ jsMapSet m k v, Q e.2 := by
  intro e he
  unfold jsMapSet at he
  by_cases ha : m.any (fun e => e.1 == k) = true
  · rw [if_pos ha] at he
    rcases List.mem_map.mp he with ⟨e', he', hee⟩
    by_cases hek : (e'.1 == k) = true
    · rw [if_pos hek] at hee
      rw [← hee]
      exact hv
    · rw [if_neg hek] at hee
      rw [← hee]
      exact hm e' he'
  · rw [if_neg ha] at he
    rcases List.mem_append.mp he with he1 | he2
    · exact hm e he1
    · rw [List.mem_singleton] at he2
      rw [he2]
      exact hv

/-- A successful JS map lookup yields a stored value. -/
theorem jsMapGet_prop {α : Type} (m : List (String × α)) (k : String)
    (v : α) (Q : α → Prop) (hm : ∀ e ∈ m, Q e.2)
    (h : jsMapGet m k = some v) : Q v := by
  unfold jsMapGet at h
  rcases hf : m.find? (fun e => e.1 == k) with _ | e
  · rw [hf] at h
    cases h
  · rw [hf] at h
    have hmem := List.mem_of_find?_eq_some hf
    cases h
    exact hm e hmem

/-- Updating one cell preserves the invariant when every child address it
writes is fresh or was already a child of the old cell. -/
theorem childrenFresh_heapUpd (n : Nat) (h : List HCell) (a : Nat)
    (f : HCell → HCell) (hinv : childrenFresh n h)
    (hf : ∀ c nd', f c = HCell.nodeCell nd' → ∀ x ∈ nd'.children,
      n ≤ x ∨ (∃ nd, c = HCell.nodeCell nd ∧ x ∈ nd.children)) :
    childrenFresh n (heapUpd h a f) := by
  intro b nd hb x hx
  unfold heapUpd at hb
  rcases hg : h.get? a with _ | cell
  · rw [hg] at hb
    exact hinv b nd hb x hx
  · rw [hg] at hb
    by_cases hba : b = a
    · subst hba
      have hlt : b < h.length := (List.get?_eq_some.mp hg).1
      rw [List.get?_set_eq_of_lt _ hlt] at hb
      rcases hf cell nd (Option.some.inj hb) x hx with hfresh | ⟨nd0, hc, hch⟩
      · exact hfresh
      · subst hc
        exact hinv b nd0 hg x hch
    · rw [List.get?_set_ne _ _ (fun he => hba he.symm)] at hb
      exact hinv b nd hb x hx

/-- The allocation pass only appends fresh node cells: the original heap is
a prefix of the result, every recorded map address is fresh, and all
children fields remain fresh. -/
theorem allocPass_spec (spans : List Span) (h0 : List HCell)
    (hinv0 : childrenFresh h0.length h0) :
    (∃ ex, (allocPass spans h0).1 = h0 ++ ex) ∧
    (∀ e ∈ (allocPass spans h0).2, h0.length ≤ e.2) ∧
    childrenFresh h0.length (allocPass spans h0).1 := by
  unfold allocPass
  refine @List.foldlRecOn _ _
    (fun st : List HCell × List (String × Nat) =>
      (∃ ex, st.1 = h0 ++ ex) ∧ (∀ e ∈ st.2, h0.length ≤ e.2) ∧
      childrenFresh h0.length st.1) _ _ _
    ⟨⟨[], (List.append_nil h0).symm⟩, by simp, hinv0⟩ ?_
  intro acc hacc i _
  obtain ⟨⟨ex, hex⟩, hvals, hinv⟩ := hacc
  split
  · dsimp only
    refine ⟨?_, ?_, ?_⟩
    · rw [hex]
      exact ⟨ex ++ [_], List.append_assoc _ _ _⟩
    · apply mem_jsMapSet_values _ _ _ _ hvals
      rw [hex]
      simp
    · intro b nd hb x hx
      have hblen : b < acc.1.length + 1 := by
        have := (List.get?_eq_some.mp hb).1
        simpa using this
      rcases Nat.lt_trichotomy b acc.1.length with hblt | hbeq | hbgt
      · rw [List.get?_append hblt] at hb
        exact hinv b nd hb x hx
      · subst hbeq
        rw [List.get?_concat_length] at hb
        cases Option.some.inj hb
        simp at hx
      · omega
  · exact ⟨⟨ex, hex⟩, hvals, hinv⟩

/-- `children.push` writes one given address and keeps the old ones. -/
theorem pushChild_children (n addr : Nat) (hn : n ≤ addr) :
    ∀ c nd', pushChild addr c = HCell.nodeCell nd' → ∀ x ∈ nd'.children,
      n ≤ x ∨ (∃ nd, c = HCell.nodeCell nd ∧ x ∈ nd.children) := by
  intro c nd' hc x hx
  cases c with
  | spanCell s =>
    have hc' : HCell.spanCell s = HCell.nodeCell nd' := hc
    cases hc'
  | nodeCell m =>
    have hc' : HCell.nodeCell { m with children := m.children ++ [addr] } =
        HCell.nodeCell nd' := hc
    cases hc'
    rcases List.mem_append.mp hx with h1 | h2
    · exact Or.inr ⟨m, rfl, h1⟩
    · rw [List.mem_singleton] at h2
      subst h2
      exact Or.inl hn

/-- A depth write keeps the children field. -/
theorem setDepth_children (n d : Nat) :
    ∀ c nd', setDepth d c = HCell.nodeCell nd' → ∀ x ∈ nd'.children,
      n ≤ x ∨ (∃ nd, c = HCell.nodeCell nd ∧ x ∈ nd.children) := by
  intro c nd' hc x hx
  cases c with
  | spanCell s =>
    have hc' : HCell.spanCell s = HCell.nodeCell nd' := hc
    cases hc'
  | nodeCell m =>
    have hc' : HCell.nodeCell { m with depth := d } = HCell.nodeCell nd' := hc
    cases hc'
    exact Or.inr ⟨m, rfl, hx⟩

/-- The attachment pass writes only at map addresses: the first `n` cells
are untouched, every root address is fresh, and children stay fresh. -/
theorem attachPass_spec (entries : List (String × Nat)) (h1 : List HCell)
    (n : Nat) (hent : ∀ e ∈ entries, n ≤ e.2)
    (hinv1 : childrenFresh n h1) :
    (attachPass entries h1).1.take n = h1.take n ∧
    (∀ a ∈ (attachPass entries h1).2, n ≤ a) ∧
    childrenFresh n (attachPass entries h1).1 := by
  unfold attachPass
  refine @List.foldlRecOn _ _
    (fun st : List HCell × List Nat =>
      st.1.take n = h1.take n ∧ (∀ a ∈ st.2, n ≤ a) ∧
      childrenFresh n st.1) _ _ _
    ⟨rfl, by simp, hinv1⟩ ?_
  intro acc hacc e he
  obtain ⟨htake, hroots, hinv⟩ := hacc
  have hne : n ≤ e.2 := hent e he
  have hrootstep : (∀ a ∈ acc.2 ++ [e.2], n ≤ a) := by
    intro a ha
    rcases List.mem_append.mp ha with h1a | h2a
    · exact hroots a h1a
    · rw [List.mem_singleton] at h2a
      subst h2a
      exact hne
  split
  · rename_i nd hget
    split
    · rename_i pid hpid
      split
      · split
        · rename_i pa hpa
          dsimp only
          have hpan : n ≤ pa :=
            jsMapGet_prop entries pid pa (fun v => n ≤ v) hent hpa
          have htake1 : (heapUpd acc.1 pa (pushChild e.2)).take n =
              acc.1.take n := take_heapUpd _ _ _ _ hpan
          have hfresh1 : childrenFresh n (heapUpd acc.1 pa (pushChild e.2)) :=
            childrenFresh_heapUpd n acc.1 pa _ hinv
              (pushChild_children n e.2 hne)
          split
          · refine ⟨?_, hroots, ?_⟩
            · rw [take_heapUpd _ _ _ _ hne, htake1, htake]
            · exact childrenFresh_heapUpd n _ e.2 _ hfresh1
                (setDepth_children n _)
          · exact ⟨htake1.trans htake, hroots, hfresh1⟩
        · exact ⟨htake, hrootstep, hinv⟩
      · exact ⟨htake, hrootstep, hinv⟩
    · exact ⟨htake, hrootstep, hinv⟩
  · exact ⟨htake, hroots, hinv⟩

/-- The recursive children sort writes only at node addresses it is given
or finds in (fresh) children fields: the first `n` cells are untouched. -/
theorem sortPass_spec (n : Nat) :
    ∀ fuel (addrs : List Nat) (h : List HCell), childrenFresh n h →
      (∀ a ∈ addrs, n ≤ a) →
      (sortPass fuel addrs h).take n = h.take n ∧
      childrenFresh n (sortPass fuel addrs h) := by
  intro fuel
  induction fuel with
  | zero =>
    intro addrs h hinv _
    exact ⟨rfl, hinv⟩
  | succ fuel ih =>
    intro addrs h hinv haddr
    rw [sortPass]
    refine @List.foldlRecOn _ _
      (fun hh : List HCell => hh.take n = h.take n ∧ childrenFresh n hh)
      _ _ _ ⟨rfl, hinv⟩ ?_
    intro hh hhinv a ha
    obtain ⟨htake, hfresh⟩ := hhinv
    split
    · dsimp only
      rename_i nd heq
      have hcs : ∀ x ∈ sortAddrs hh nd.children, n ≤ x := by
        intro x hx
        have hx' : x ∈ nd.children :=
          (List.perm_insertionSort _ _).mem_iff.mp hx
        exact hfresh a nd heq x hx'
      have hupd_take : (heapUpd hh a
          (setChildren (sortAddrs hh nd.children))).take n = hh.take n :=
        take_heapUpd _ _ _ _ (haddr a ha)
      have hupd_fresh : childrenFresh n
          (heapUpd hh a (setChildren (sortAddrs hh nd.children))) := by
        refine childrenFresh_heapUpd n hh a _ hfresh ?_
        intro c nd' hc x hx
        cases c with
        | spanCell s =>
          have hc' : HCell.spanCell s = HCell.nodeCell nd' := hc
          cases hc'
        | nodeCell m =>
          have hc' : HCell.nodeCell
              { m with children := sortAddrs hh nd.children } =
              HCell.nodeCell nd' := hc
          cases hc'
          exact Or.inl (hcs x hx)
      have hrec := ih (sortAddrs hh nd.children) _ hupd_fresh hcs
      exact ⟨hrec.1.trans (hupd_take.trans htake), hrec.2⟩
    · exact ⟨htake, hfresh⟩

/-- C9: retracing the build on an explicit object heap whose first
`spans.length` cells are the input Span objects, the builder never writes an
input cell: after allocation, attachment, depth writes and the recursive
children sort (any recursion fuel), the input prefix of the heap is exactly
the original Span objects, and every root of the produced forest lives at a
fresh address beyond the input. -/
theorem buildHeap_frame (spans : List Span) (fuel : Nat) :
    ((buildHeap spans fuel).1).take spans.length =
      spans.map HCell.spanCell ∧
    (∀ a ∈ (buildHeap spans fuel).2, spans.length ≤ a) ∧
    childrenFresh spans.length (buildHeap spans fuel).1 := by
  have htakemap : (spans.map HCell.spanCell).take spans.length =
      spans.map HCell.spanCell := by
    conv_lhs => rw [show spans.length = (spans.map HCell.spanCell).length by simp]
    exact List.take_length _
  have hinv0 : childrenFresh spans.length (spans.map HCell.spanCell) := by
    intro a nd hnd x hx
    rw [List.get?_map] at hnd
    rcases hg : spans.get? a with _ | sp
    · rw [hg] at hnd
      cases hnd
    · rw [hg] at hnd
      cases hnd
  unfold buildHeap
  by_cases he : spans.isEmpty = true
  · rw [if_pos he]
    exact ⟨htakemap, by simp, hinv0⟩
  · rw [if_neg he]
    have hA := allocPass_spec spans (spans.map HCell.spanCell)
      (by rw [show (spans.map HCell.spanCell).length = spans.length by simp]
          exact hinv0)
    rcases hA2 : allocPass spans (spans.map HCell.spanCell) with ⟨h1, entries⟩
    rw [hA2] at hA
    dsimp only at hA ⊢
    obtain ⟨⟨ex, hex⟩, hents, hfresh1⟩ := hA
    have hlen : (spans.map HCell.spanCell).length = spans.length := by simp
    rw [hlen] at hents hfresh1
    have hB := attachPass_spec entries h1 spans.length hents hfresh1
    rcases hB2 : attachPass entries h1 with ⟨h2, roots⟩
    rw [hB2] at hB
    dsimp only at hB ⊢
    obtain ⟨htake2, hroots, hfresh2⟩ := hB
    have hroots1 : ∀ a ∈ sortAddrs h2 roots, spans.length ≤ a := by
      intro a ha
      exact hroots a ((List.perm_insertionSort _ _).mem_iff.mp ha)
    have hC := sortPass_spec spans.length fuel (sortAddrs h2 roots) h2
      hfresh2 hroots1
    refine ⟨?_, hroots1, hC.2⟩
    rw [hC.1, htake2, hex]
    rw [show spans.length = (spans.map HCell.spanCell).length by simp]
    rw [List.take_left]
